import Mathlib

/-!
Shallow embedding of the track-geometry and collision core of the `glider`
repository (`src/game/src/core/`): the ray/triangle kernel (`mesh.rs`), curve
evaluation (`bezier.rs`, `looping.rs`), the cross-section triangulator and
segment editing (`segment.rs`), and the course with its uniform hash grid
(`course.rs`).

`f32` scalars are modelled as real numbers; decimal literals of the source are
taken as exact rationals.  The two generator loops of the source advance a real
parameter `t` by a data-dependent positive amount each iteration, so they are
embedded with an explicit fuel argument; every theorem that depends on the loop
running to completion either fixes a concretely sufficient fuel or carries a
termination hypothesis.
-/

namespace Glider

/-- Pure index-generation loop of `triangulate` (`segment.rs`), split out
because it only depends on the vertex count and column count.  `i` advances by
`cols + 1` while `i < l`, emitting one band of `cols * 2` triangles per
iteration; the six indices of each column are reduced `% len` exactly as in the
source (the first of the six is pushed without a modulo there as well). -/
def band (i cols len : ℕ) : List ℕ :=
  (List.range cols).flatMap (fun b =>
    [i + b,
     (i + b + cols + 1) % len,
     (i + b + 1) % len,
     (i + b + cols + 1) % len,
     (i + b + cols + 2) % len,
     (i + b + 1) % len])

/-- The `while i < l` loop of `triangulate`'s index generation. -/
def trackLoop (cols len l i : ℕ) : List ℕ :=
  if i < l then band i cols len ++ trackLoop cols len l (i + cols + 1) else []
termination_by l - i
decreasing_by omega

/-- `indices.chunks(3).map(|i| (i[0], i[1], i[2]))` from `Mesh::from_raw`;
in the source every index list has length divisible by three, so dropping a
ragged tail (which would panic in Rust) is unreachable. -/
def triplesOf : List ℕ → List (ℕ × ℕ × ℕ)
  | a :: b :: c :: rest => (a, b, c) :: triplesOf rest
  | _ => []

noncomputable section

open Real

/-- `cgmath::Vector3<f32>`, with `f32` modelled as `ℝ`. -/
@[ext]
structure Vec3 where
  x : ℝ
  y : ℝ
  z : ℝ

namespace Vec3

instance : Zero Vec3 := ⟨⟨0, 0, 0⟩⟩
instance : Add Vec3 := ⟨fun a b => ⟨a.x + b.x, a.y + b.y, a.z + b.z⟩⟩
instance : Sub Vec3 := ⟨fun a b => ⟨a.x - b.x, a.y - b.y, a.z - b.z⟩⟩
instance : Neg Vec3 := ⟨fun a => ⟨-a.x, -a.y, -a.z⟩⟩
instance : SMul ℝ Vec3 := ⟨fun s a => ⟨s * a.x, s * a.y, s * a.z⟩⟩

@[simp] theorem zero_x : (0 : Vec3).x = 0 := rfl
@[simp] theorem zero_y : (0 : Vec3).y = 0 := rfl
@[simp] theorem zero_z : (0 : Vec3).z = 0 := rfl
@[simp] theorem add_x (a b : Vec3) : (a + b).x = a.x + b.x := rfl
@[simp] theorem add_y (a b : Vec3) : (a + b).y = a.y + b.y := rfl
@[simp] theorem add_z (a b : Vec3) : (a + b).z = a.z + b.z := rfl
@[simp] theorem sub_x (a b : Vec3) : (a - b).x = a.x - b.x := rfl
@[simp] theorem sub_y (a b : Vec3) : (a - b).y = a.y - b.y := rfl
@[simp] theorem sub_z (a b : Vec3) : (a - b).z = a.z - b.z := rfl
@[simp] theorem neg_x (a : Vec3) : (-a).x = -a.x := rfl
@[simp] theorem neg_y (a : Vec3) : (-a).y = -a.y := rfl
@[simp] theorem neg_z (a : Vec3) : (-a).z = -a.z := rfl
@[simp] theorem smul_x (s : ℝ) (a : Vec3) : (s • a).x = s * a.x := rfl
@[simp] theorem smul_y (s : ℝ) (a : Vec3) : (s • a).y = s * a.y := rfl
@[simp] theorem smul_z (s : ℝ) (a : Vec3) : (s • a).z = s * a.z := rfl

/-- `InnerSpace::dot`. -/
def dot (a b : Vec3) : ℝ := a.x * b.x + a.y * b.y + a.z * b.z

/-- `Vector3::cross`. -/
def cross (a b : Vec3) : Vec3 :=
  ⟨a.y * b.z - a.z * b.y, a.z * b.x - a.x * b.z, a.x * b.y - a.y * b.x⟩

/-- `InnerSpace::magnitude`: Euclidean length. -/
def magnitude (a : Vec3) : ℝ := Real.sqrt (dot a a)

/-- `InnerSpace::normalize`: `self * (1 / magnitude)`.  On a zero vector the
source produces IEEE NaNs; here `1 / 0 = 0` yields the zero vector — no claim
inspects a frame built from a zero direction. -/
def normalize (a : Vec3) : Vec3 := (1 / magnitude a) • a

/-- `Zero::is_zero`: exact comparison of all components against `0`. -/
def is_zero (a : Vec3) : Prop := a = 0

@[simp] theorem mk_add_mk (a b c d e f : ℝ) :
    (⟨a, b, c⟩ : Vec3) + ⟨d, e, f⟩ = ⟨a + d, b + e, c + f⟩ := rfl
@[simp] theorem mk_sub_mk (a b c d e f : ℝ) :
    (⟨a, b, c⟩ : Vec3) - ⟨d, e, f⟩ = ⟨a - d, b - e, c - f⟩ := rfl
@[simp] theorem neg_mk (a b c : ℝ) : -(⟨a, b, c⟩ : Vec3) = ⟨-a, -b, -c⟩ := rfl
@[simp] theorem smul_mk (s a b c : ℝ) :
    s • (⟨a, b, c⟩ : Vec3) = ⟨s * a, s * b, s * c⟩ := rfl
@[simp] theorem cross_mk (a b c d e f : ℝ) :
    cross ⟨a, b, c⟩ ⟨d, e, f⟩ =
      ⟨b * f - c * e, c * d - a * f, a * e - b * d⟩ := rfl
@[simp] theorem dot_mk (a b c d e f : ℝ) :
    dot ⟨a, b, c⟩ ⟨d, e, f⟩ = a * d + b * e + c * f := rfl

@[simp] theorem dot_zero_left (b : Vec3) : dot 0 b = 0 := by simp [dot]

theorem dot_smul_left (s : ℝ) (a b : Vec3) :
    dot (s • a) b = s * dot a b := by simp [dot]; ring

theorem dot_neg_left (a b : Vec3) : dot (-a) b = -(dot a b) := by
  simp [dot]; ring

theorem dot_neg_right (a b : Vec3) : dot a (-b) = -(dot a b) := by
  simp [dot]; ring

theorem dot_add_right (a b c : Vec3) :
    dot a (b + c) = dot a b + dot a c := by simp [dot]; ring

theorem magnitude_nonneg (a : Vec3) : 0 ≤ magnitude a := Real.sqrt_nonneg _

theorem dot_self_pos (a : Vec3) (h : a ≠ 0) : 0 < dot a a := by
  rcases lt_or_eq_of_le (by positivity : (0:ℝ) ≤ a.x ^ 2 + a.y ^ 2 + a.z ^ 2)
    with hlt | heq
  · simpa [dot, sq] using hlt
  · exfalso
    apply h
    have hx : a.x = 0 ∧ a.y = 0 ∧ a.z = 0 := by
      constructor
      · nlinarith [sq_nonneg a.x, sq_nonneg a.y, sq_nonneg a.z]
      constructor
      · nlinarith [sq_nonneg a.x, sq_nonneg a.y, sq_nonneg a.z]
      · nlinarith [sq_nonneg a.x, sq_nonneg a.y, sq_nonneg a.z]
    ext <;> simp [hx.1, hx.2.1, hx.2.2]

theorem magnitude_pos (a : Vec3) (h : a ≠ 0) : 0 < magnitude a :=
  Real.sqrt_pos.mpr (dot_self_pos a h)

end Vec3

/-- The `Intersection` result enum of `mesh.rs`. -/
inductive Intersection where
  | Degenerate : Intersection
  | Parallel : Intersection
  | PointAndNormal : Vec3 → Vec3 → Intersection
  | None : Intersection

open Classical in
/-- `intersect_ray_triangle` from `mesh.rs`: the ray is the segment from `r.1`
to `r.2`, the triangle is `(t0, t1, t2)`.  Mirrors the source line by line:
degenerate test on the winding normal, parallel test `|n·dir| < 0.000001`,
plane parameter `rr = a / b` clipped to `[0,1]`, barycentric rejection, and the
hit value `PointAndNormal(i, -n.normalize())`. -/
def intersect_ray_triangle (r : Vec3 × Vec3) (t0 t1 t2 : Vec3) : Intersection :=
  let u := t1 - t0
  let v := t2 - t0
  let n := Vec3.cross u v
  if n.is_zero then Intersection.Degenerate else
  let dir := r.2 - r.1
  let w0 := r.1 - t0
  let a := -(Vec3.dot n w0)
  let b := Vec3.dot n dir
  if |b| < 0.000001 then Intersection.Parallel else
  let rr := a / b
  if rr < 0 ∨ rr > 1 then Intersection.None else
  let i := r.1 + rr • dir
  let uu := Vec3.dot u u
  let uv := Vec3.dot u v
  let vv := Vec3.dot v v
  let w := i - t0
  let wu := Vec3.dot w u
  let wv := Vec3.dot w v
  let d := uv * uv - uu * vv
  let s := (uv * wv - vv * wu) / d
  if s < 0 ∨ s > 1 then Intersection.None else
  let t := (uv * wu - uu * wv) / d
  if t < 0 ∨ s + t > 1 then Intersection.None else
  Intersection.PointAndNormal i (-(Vec3.normalize n))

/-- `Point` from `bezier.rs`: a control point with position, half-width and
roll angle (degrees). -/
structure Point where
  pos : Vec3
  width : ℝ
  roll : ℝ

open Classical in
/-- `Point::new`: the z component is nudged away from exactly `0`. -/
def Point.new (x y z width roll : ℝ) : Point :=
  ⟨⟨x, y, if z = 0 then 0.00001 else z⟩, width, roll⟩

/-- `Point::rotate_around`: offset the position along `angle` (degrees) in the
xz plane by `distance`. -/
def Point.rotate_around (p : Point) (angle distance : ℝ) : Point :=
  let a := Real.pi / 180 * angle
  Point.new (p.pos.x + Real.cos a * distance) p.pos.y
    (p.pos.z + Real.sin a * distance) p.width p.roll

/-- A sampled cross-section frame (`Row` in `bezier.rs`). -/
structure Row where
  pos : Vec3
  binormal : Vec3
  normal : Vec3
  width : ℝ
  roll : ℝ

/-- The `lerp` helper shared by `bezier.rs` and `looping.rs`. -/
def lerp (a b t : ℝ) : ℝ := a * (1 - t) + b * t

/-- `Bezier` over four control points.  Rust tuple slots `.0 .1 .2 .3`
correspond to `.points.1`, `.points.2.1`, `.points.2.2.1`, `.points.2.2.2`. -/
structure Bezier where
  points : Point × Point × Point × Point

def Bezier.new (a b c d : Point) : Bezier := ⟨(a, b, c, d)⟩

/-- `Bezier::point`: cubic Bezier position at `t`; when `with_y` is false the
vertical component is zeroed (the "flattened" variant). -/
def Bezier.point (bz : Bezier) (t : ℝ) (with_y : Bool) : Vec3 :=
  let dt := 1 - t
  let dt2 := dt * dt
  let t2 := t * t
  let p := bz.points
  let v := ((dt2 * dt) • p.1.pos) + ((3 * dt2 * t) • p.2.1.pos) +
    ((3 * dt * t2) • p.2.2.1.pos) + ((t2 * t) • p.2.2.2.pos)
  if with_y then v else ⟨v.x, 0, v.z⟩

/-- `Bezier::derivative` at `t`. -/
def Bezier.derivative (bz : Bezier) (t : ℝ) : Vec3 :=
  let dt := 1 - t
  let p := bz.points
  ((3 * (dt * dt)) • (p.2.1.pos - p.1.pos)) +
    ((6 * (dt * t)) • (p.2.2.1.pos - p.2.1.pos)) +
    ((3 * (t * t)) • (p.2.2.2.pos - p.2.2.1.pos))

/-- Loop body of `Bezier::generate_segments` at raw parameter `t`: position at
`min t 1`, finite-difference tangent from `t + 0.002`, binormal with its `y`
forced non-negative, and width/roll interpolated between the two inner control
points at the raw (unclamped) `t`, exactly as in the source. -/
def Bezier.rowAt (bz : Bezier) (t : ℝ) : Row :=
  let py := bz.point (min t 1) true
  let p := bz.point (min t 1) false
  let p2 := bz.point (t + 0.002) false
  let ta := Vec3.normalize (p2 - p)
  let b0 := Vec3.normalize (Vec3.cross ta (p2 + p))
  let b : Vec3 := ⟨b0.x, |b0.y|, b0.z⟩
  let n := Vec3.normalize (Vec3.cross b ta)
  { pos := py, binormal := b, normal := n,
    width := lerp bz.points.2.1.width bz.points.2.2.1.width t,
    roll := lerp bz.points.2.1.roll bz.points.2.2.1.roll t }

open Classical in
/-- The parameter update `t += step / deriv.magnitude()`.  When the derivative
magnitude is exactly `0` the `f32` division yields `+inf`, which the source's
`t.min(1.0)` clamp and `t >= 1.0` break treat like any value `≥ 1`; that case
is represented by `t + 2`. -/
def Bezier.stepAt (bz : Bezier) (step t : ℝ) : ℝ :=
  let len := Vec3.magnitude (bz.derivative t)
  if len = 0 then t + 2 else t + step / len

open Classical in
/-- The sampling loop of `Bezier::generate_segments`, with fuel: each
iteration pushes a row at the current `t`, breaks once `t ≥ 1`, otherwise
advances `t` by `step / |derivative t|`. -/
def Bezier.genLoop (bz : Bezier) (step : ℝ) : ℕ → ℝ → List Row
  | 0, _ => []
  | fuel + 1, t =>
    bz.rowAt t :: (if 1 ≤ t then [] else bz.genLoop step fuel (bz.stepAt step t))

/-- `Bezier::generate_segments`. -/
def Bezier.generate_segments (bz : Bezier) (step : ℝ) (fuel : ℕ) : List Row :=
  bz.genLoop step fuel 0

open Classical in
/-- The raw parameter values visited by `Bezier.genLoop`, same recursion. -/
def Bezier.paramList (bz : Bezier) (step : ℝ) : ℕ → ℝ → List ℝ
  | 0, _ => []
  | fuel + 1, t =>
    t :: (if 1 ≤ t then [] else bz.paramList step fuel (bz.stepAt step t))

/-- The sampling loop reaches its `t ≥ 1` break within `fuel` iterations. -/
def Bezier.loopDone (bz : Bezier) (step : ℝ) : ℕ → ℝ → Prop
  | 0, _ => False
  | fuel + 1, t => 1 ≤ t ∨ (¬ 1 ≤ t ∧ bz.loopDone step fuel (bz.stepAt step t))

/-- `Loop` from `looping.rs`.  Rust tuple slots `.0 .1` of `points` correspond
to `.points.1`, `.points.2`. -/
structure Loop where
  points : Point × Point
  angle : ℝ
  width : ℝ
  radius : ℝ

/-- `Loop::new`. -/
def Loop.new (a b : Point) (height rotation : ℝ) : Loop :=
  { angle := 90 - rotation, width := a.width + b.width,
    points := (a, b), radius := height }

/-- Loop body of `Loop::generate_segments` at raw parameter `t`, with the
precomputed circumference `length`, entry angle `angle` (radians) and lateral
offsets `ox`, `oz`. -/
def Loop.rowAt (lp : Loop) (length angle ox oz t : ℝ) : Row :=
  let l := (min t length / lp.radius) * 0.5
  let u := min t length / lp.radius - Real.pi * 0.5
  let w := lerp lp.points.2.width lp.points.1.width (l / Real.pi)
  let x := lp.points.1.pos.x + Real.sin angle * Real.cos u * lp.radius +
    lerp 0 ox (l / Real.pi)
  let y := lp.points.1.pos.y + Real.sin u * lp.radius + lp.radius
  let z := lp.points.1.pos.z + Real.cos angle * Real.cos u * lp.radius +
    lerp 0 oz (l / Real.pi)
  let n : Vec3 := ⟨Real.cos angle * (-1), 0, Real.sin angle * (-1)⟩
  let b : Vec3 := -(⟨Real.sin angle * Real.cos u, Real.sin u,
    Real.cos angle * Real.cos u⟩ : Vec3)
  { pos := ⟨x, y, z⟩, binormal := b, normal := n, width := w,
    roll := lerp lp.points.2.roll lp.points.1.roll (l / Real.pi) }

open Classical in
/-- The `while t < length * 2.0` loop of `Loop::generate_segments`, with fuel:
push a row at the (clamped) current `t`, break once `t ≥ length`, otherwise
advance by the constant `step`. -/
def Loop.genLoop (lp : Loop) (step length angle ox oz : ℝ) : ℕ → ℝ → List Row
  | 0, _ => []
  | fuel + 1, t =>
    if t < length * 2 then
      lp.rowAt length angle ox oz t ::
        (if length ≤ t then []
         else lp.genLoop step length angle ox oz fuel (t + step))
    else []

/-- `Loop::generate_segments`. -/
def Loop.generate_segments (lp : Loop) (step : ℝ) (fuel : ℕ) : List Row :=
  let length := lp.radius * Real.pi * 2
  let angle := lp.angle * (Real.pi / 180)
  let offset_angle := (lp.angle - 90) * (Real.pi / 180)
  let ox := Real.sin offset_angle * lp.width
  let oz := Real.cos offset_angle * lp.width
  lp.genLoop step length angle ox oz fuel 0

open Classical in
/-- Vertex fan of one row in `triangulate`: `cols + 1` vertices stepping the
roll-rotated offset `o` down by `o * (2 / cols)`; rows `0` and `last` use a
normal derived from the orientation overrides `fa` / `ta`. -/
def rowVertices (cols : ℕ) (last index : ℕ) (fa ta : ℝ) (s : Row) : List Vec3 :=
  let angle := Real.pi * 0.5 + (Real.pi / 180) * s.roll
  let normal : Vec3 :=
    if index = 0 then
      let r := Real.pi * 0.5 + (Real.pi / 180) * fa
      ⟨Real.cos r * (-1), 0, Real.sin r * (-1)⟩
    else if index = last then
      let r := Real.pi * 0.5 + (Real.pi / 180) * ta
      ⟨Real.cos r * (-1), 0, Real.sin r * (-1)⟩
    else s.normal
  let o := s.width • (Real.cos angle • s.binormal + Real.sin angle • normal)
  let step := (2 / (cols : ℝ)) • o
  (List.range (cols + 1)).map (fun (k : ℕ) => s.pos + (o - (k : ℝ) • step))

/-- `triangulate` from `segment.rs`: sweep the rows into `rows.len()*(cols+1)`
vertices, then run the index loop from `i = 0` while `i < len - (cols+1)`
(saturating subtraction, here `ℕ` subtraction). -/
def triangulate (rows : List Row) (cols : ℕ) (fa ta : ℝ) :
    List Vec3 × List ℕ :=
  let last := rows.length - 1
  let vertices := rows.enum.flatMap (fun p => rowVertices cols last p.1 fa ta p.2)
  let len := vertices.length
  (vertices, trackLoop cols len (len - (cols + 1)) 0)

/-- `Mesh` from `mesh.rs`, without the GPU-side handle fields (`transform`,
`buffer`, `slice` belong to the excluded rendering collaborator). -/
structure Mesh where
  vectors : List Vec3
  indices : List ℕ
  triangles : List (ℕ × ℕ × ℕ)
  color : ℝ × ℝ × ℝ × ℝ

/-- `Mesh::from_raw`. -/
def Mesh.from_raw (vertices : List Vec3) (indices : List ℕ) : Mesh :=
  { vectors := vertices, indices := indices, triangles := triplesOf indices,
    color := (1, 1, 1, 1) }

/-- `Mesh::set_color` (the buffer invalidation concerns only the GPU side). -/
def Mesh.set_color (m : Mesh) (c : ℝ × ℝ × ℝ × ℝ) : Mesh := { m with color := c }

/-- The `Mesh::triangles()` accessor (renamed: `triangles` is the index-triple
field): the triangle corner positions.  The source indexes `self.vectors`
unchecked; for meshes built by `triangulate` every index is in bounds, so the
`getD` default is never consulted there. -/
def Mesh.trianglePoints (m : Mesh) : List (Vec3 × Vec3 × Vec3) :=
  m.triangles.map (fun i =>
    (m.vectors.getD i.1 0, m.vectors.getD i.2.1 0, m.vectors.getD i.2.2 0))

/-- `Mesh::intersect_ray`: run the kernel on triangle `tid` and keep only a
`PointAndNormal` outcome.  The source indexes `self.triangles[tid]` unchecked
and panics when `tid` is out of bounds; the `none` on a missing triangle
stands for that unreachable-under-the-invariant path (see the grid claims). -/
def Mesh.intersect_ray (m : Mesh) (ray : Vec3 × Vec3) (tid : ℕ) :
    Option Intersection :=
  match m.triangles.get? tid with
  | none => none
  | some idx =>
    match intersect_ray_triangle ray (m.vectors.getD idx.1 0)
        (m.vectors.getD idx.2.1 0) (m.vectors.getD idx.2.2 0) with
    | Intersection.PointAndNormal p n => some (Intersection.PointAndNormal p n)
    | _ => none

/-- The keys `Segment::edit` inspects. -/
inductive Key where
  | G | Key1 | Key2 | Key3 | Key4 | U | O | I | K | J | L | LShift
deriving DecidableEq

/-- The keyboard snapshot consumed by the editing path. -/
structure Keyboard where
  was_pressed : Key → Bool
  is_pressed : Key → Bool

/-- `SegmentType` from `segment.rs`. -/
inductive SegmentType where
  | Straight | Curve90 | Curve180 | Looping

/-- `Segment` from `segment.rs` (`from` is a Lean keyword, hence `from_`). -/
structure Segment where
  from_ : Point
  to_ : Point
  angle : ℝ
  active_point : Bool
  typ : SegmentType
  rows : List Row
  mesh : Mesh

/-- `Segment::set_to_straight`. -/
def Segment.set_to_straight (s : Segment) (origin : Vec3) : Segment :=
  let s := { s with
    angle := (0 : ℝ), from_ := { s.from_ with roll := 0 },
    to_ := { s.to_ with roll := 0 }, typ := SegmentType.Straight }
  if s.active_point then
    { s with
      to_ := { s.to_ with pos := origin },
      from_ := { s.from_ with pos := origin - ⟨500, 0, 0⟩ } }
  else
    { s with
      from_ := { s.from_ with pos := origin },
      to_ := { s.to_ with pos := origin + ⟨500, 0, 0⟩ } }

/-- `Segment::set_to_180_curve`. -/
def Segment.set_to_180_curve (s : Segment) (origin : Vec3) : Segment :=
  let s := { s with
    angle := (180 : ℝ), from_ := { s.from_ with roll := 0 },
    to_ := { s.to_ with roll := 0 }, typ := SegmentType.Curve180 }
  if s.active_point then
    { s with
      to_ := { s.to_ with pos := origin },
      from_ := { s.from_ with pos := origin - ⟨0, 0, 500⟩ } }
  else
    { s with
      from_ := { s.from_ with pos := origin },
      to_ := { s.to_ with pos := origin + ⟨0, 0, 500⟩ } }

/-- `Segment::set_to_90_curve` (the source also sets `angle = 180.0` here). -/
def Segment.set_to_90_curve (s : Segment) (origin : Vec3) : Segment :=
  let s := { s with
    angle := (180 : ℝ), from_ := { s.from_ with roll := 0 },
    to_ := { s.to_ with roll := 0 }, typ := SegmentType.Curve90 }
  if s.active_point then
    { s with
      to_ := { s.to_ with pos := origin },
      from_ := { s.from_ with pos := origin - ⟨300, 0, 300⟩ } }
  else
    { s with
      from_ := { s.from_ with pos := origin },
      to_ := { s.to_ with pos := origin + ⟨300, 0, 300⟩ } }

/-- `Segment::set_to_looping`. -/
def Segment.set_to_looping (s : Segment) (origin : Vec3) : Segment :=
  let s := { s with
    angle := (0 : ℝ), from_ := { s.from_ with roll := 0 },
    to_ := { s.to_ with roll := 0 }, typ := SegmentType.Looping }
  if s.active_point then
    { s with
      to_ := { s.to_ with pos := origin },
      from_ := { s.from_ with pos := origin - ⟨500, 0, 0⟩ } }
  else
    { s with
      from_ := { s.from_ with pos := origin },
      to_ := { s.to_ with pos := origin + ⟨500, 0, 0⟩ } }

open Classical in
/-- Truncation toward zero, the rounding underneath Rust's `%` on floats. -/
def realTrunc (x : ℝ) : ℝ := if 0 ≤ x then (⌊x⌋ : ℝ) else (⌈x⌉ : ℝ)

/-- Rust `a % b` on `f32`: remainder of truncated division. -/
def frem (a b : ℝ) : ℝ := a - b * realTrunc (a / b)

/-- Rotation about the y axis by `phi` radians, the action of
`Matrix4::from(Quaternion::from(Euler { y: Deg(phi) }))` on a vector. -/
def rotY (phi : ℝ) (v : Vec3) : Vec3 :=
  ⟨v.x * Real.cos phi + v.z * Real.sin phi, v.y,
   -(v.x * Real.sin phi) + v.z * Real.cos phi⟩

/-- `Segment::rotate`: rotate both endpoints about `origin` in the xz plane by
`-angle` degrees (the source builds the quaternion from `Deg(-angle)`). -/
def Segment.rotate (s : Segment) (origin : Vec3) (angle : ℝ) : Segment :=
  let s := { s with angle := frem (s.angle + angle) 360 }
  let df := s.from_.pos - origin
  let dt := s.to_.pos - origin
  let phi := Real.pi / 180 * (-angle)
  { s with
    from_ := { s.from_ with pos := origin + rotY phi df },
    to_ := { s.to_ with pos := origin + rotY phi dt } }

/-- `Segment::translate`. -/
def Segment.translate (s : Segment) (offset : Vec3) (invert : Bool) : Segment :=
  if s.active_point then
    if invert then { s with from_ := { s.from_ with pos := s.from_.pos + offset } }
    else { s with to_ := { s.to_ with pos := s.to_.pos + offset } }
  else
    if invert then { s with to_ := { s.to_ with pos := s.to_.pos + offset } }
    else { s with from_ := { s.from_ with pos := s.from_.pos + offset } }

open Classical in
/-- `Segment::control_points`: derives the two Bezier handle points and the
first/last orientation-override angles from the piece type. -/
def Segment.control_points (s : Segment) : Point × Point × ℝ × ℝ :=
  match s.typ with
  | SegmentType.Curve180 =>
    let v := s.to_.pos - s.from_.pos
    let u : Vec3 := ⟨-v.z, 0, v.x⟩
    let sc : ℝ := 2 / 3
    let b := s.from_.pos - sc • u
    let c := s.to_.pos - sc • u
    (Point.new b.x b.y b.z s.from_.width s.from_.roll,
     Point.new c.x c.y c.z s.to_.width s.to_.roll,
     frem (s.angle + 180) 360, s.angle)
  | SegmentType.Curve90 =>
    let v := s.to_.pos - s.from_.pos
    let uw : Vec3 × Vec3 :=
      if s.angle = 0 ∨ s.angle = 180 then (⟨v.x, 0, 0⟩, ⟨0, 0, -v.z⟩)
      else if s.angle = 90 ∨ s.angle = 270 then (⟨0, 0, v.z⟩, ⟨-v.x, 0, 0⟩)
      else (⟨0, 0, v.z⟩, ⟨-v.x, 0, 0⟩)
    let sc : ℝ := 0.55228
    let b := s.from_.pos + sc • uw.1
    let c := s.to_.pos + sc • uw.2
    (Point.new b.x b.y b.z s.from_.width s.from_.roll,
     Point.new c.x c.y c.z s.to_.width s.to_.roll,
     s.angle + 180, frem (s.angle + 270) 360)
  | SegmentType.Straight =>
    let dx := |s.from_.pos.x - s.to_.pos.x|
    let dz := |s.from_.pos.z - s.to_.pos.z|
    let d := max dx dz * 1.33
    (s.from_.rotate_around s.angle (d * 0.5),
     s.to_.rotate_around (s.angle + 180) (d * 0.5), s.angle, s.angle)
  | SegmentType.Looping => (s.from_, s.to_, s.angle, s.angle)

open Classical in
/-- `Segment::generate`: produce rows from the loop or Bezier evaluator (step
`50`), triangulate with `cols = 3`, and replace the owned mesh. -/
def Segment.generate (s : Segment) (fuel : ℕ) : Segment :=
  let rft : List Row × ℝ × ℝ :=
    match s.typ with
    | SegmentType.Looping =>
      let dx := |s.from_.pos.x - s.to_.pos.x|
      let dz := |s.from_.pos.z - s.to_.pos.z|
      let height := if s.angle = 0 ∨ s.angle = 180 then dx else dz
      let looping := Loop.new s.from_ s.to_ height s.angle
      (looping.generate_segments 50 fuel, -s.angle, -s.angle)
    | _ =>
      let cp := s.control_points
      let bz := Bezier.new s.from_ cp.1 cp.2.1 s.to_
      (bz.generate_segments 50 fuel, cp.2.2.1, cp.2.2.2)
  let vi := triangulate rft.1 3 rft.2.1 rft.2.2
  { s with
    mesh := (Mesh.from_raw vi.1 vi.2).set_color (1, 1, 0, 1),
    rows := rft.1 }

/-- `Segment::new` (the call site in `course.rs` passes an extra `0.0` literal
that `Segment::new` in `segment.rs` has no parameter for; embedded per the
definition in `segment.rs`). -/
def Segment.new (fuel : ℕ) (from_ : Point) : Segment :=
  let s : Segment := {
    from_ := from_, to_ := from_, angle := 0,
    active_point := false, typ := SegmentType.Straight, rows := [],
    mesh := Mesh.from_raw [] [] }
  (s.set_to_straight s.from_.pos).generate fuel

/-- `Segment::start_point`. -/
def Segment.start_point (s : Segment) : Vec3 := s.from_.pos

/-- `Segment::edit`: the key-driven edit dispatch, applied in source order;
`origin` is captured once, after the `G` toggle. -/
def Segment.edit (s : Segment) (keyboard : Keyboard) (fuel : ℕ) : Segment :=
  let s := if keyboard.was_pressed Key.G then
    { s with active_point := !s.active_point } else s
  let origin := if s.active_point then s.to_.pos else s.from_.pos
  let s := if keyboard.was_pressed Key.Key1 then
    (s.set_to_straight origin).generate fuel else s
  let s := if keyboard.was_pressed Key.Key2 then
    (s.set_to_90_curve origin).generate fuel else s
  let s := if keyboard.was_pressed Key.Key3 then
    (s.set_to_180_curve origin).generate fuel else s
  let s := if keyboard.was_pressed Key.Key4 then
    (s.set_to_looping origin).generate fuel else s
  let s := if keyboard.was_pressed Key.U then
    (s.rotate origin (-90)).generate fuel else s
  let s := if keyboard.was_pressed Key.O then
    (s.rotate origin 90).generate fuel else s
  let shift := keyboard.is_pressed Key.LShift
  let s := if keyboard.was_pressed Key.I then
    (let s := s.translate ⟨100, 0, 0⟩ false
     let s := if shift then s.translate ⟨100, 0, 0⟩ true else s
     s.generate fuel) else s
  let s := if keyboard.was_pressed Key.K then
    (let s := s.translate ⟨-100, 0, 0⟩ false
     let s := if shift then s.translate ⟨-100, 0, 0⟩ true else s
     s.generate fuel) else s
  let s := if keyboard.was_pressed Key.J then
    (let s := s.translate ⟨0, 0, -100⟩ false
     let s := if shift then s.translate ⟨0, 0, -100⟩ true else s
     s.generate fuel) else s
  let s := if keyboard.was_pressed Key.L then
    (let s := s.translate ⟨0, 0, 100⟩ false
     let s := if shift then s.translate ⟨0, 0, 100⟩ true else s
     s.generate fuel) else s
  s

/-- The uniform hash grid `Tree` from `course.rs`; the `HashMap` is modelled
as a total function from cell coordinates to pair lists (absent key ↦ `[]`). -/
structure Tree where
  cells : ℤ × ℤ × ℤ → List (ℕ × ℕ)
  size : ℝ

/-- `Tree::new`. -/
def Tree.new (size : ℝ) : Tree := ⟨fun _ => [], size⟩

/-- The inclusive integer range `lo..=hi` iterated by the grid loops. -/
def cellRange (lo hi : ℤ) : List ℤ :=
  (List.range (hi + 1 - lo).toNat).map (fun (k : ℕ) => lo + (k : ℤ))

/-- The nested `x` (outer), `y`, `z` (inner) cell iteration order. -/
def cellCube (ix mx iy my iz mz : ℤ) : List (ℤ × ℤ × ℤ) :=
  (cellRange ix mx).flatMap (fun x =>
    (cellRange iy my).flatMap (fun y =>
      (cellRange iz mz).map (fun z => (x, y, z))))

open Classical in
/-- Append one `(segment, triangle)` pair to one cell's bucket. -/
def Tree.addPair (tr : Tree) (cell : ℤ × ℤ × ℤ) (pr : ℕ × ℕ) : Tree :=
  { tr with cells := fun c =>
      if c = cell then tr.cells c ++ [pr] else tr.cells c }

/-- Body of `Tree::insert` for one triangle: append `(id, i)` to every cell in
the inclusive `floor(min/size) ..= ceil(max/size)` bounding-box range. -/
def Tree.insertTriangle (tr : Tree) (id i : ℕ) (t : Vec3 × Vec3 × Vec3) :
    Tree :=
  let ix := ⌊min (min t.1.x t.2.1.x) t.2.2.x / tr.size⌋
  let iy := ⌊min (min t.1.y t.2.1.y) t.2.2.y / tr.size⌋
  let iz := ⌊min (min t.1.z t.2.1.z) t.2.2.z / tr.size⌋
  let mx := ⌈max (max t.1.x t.2.1.x) t.2.2.x / tr.size⌉
  let my := ⌈max (max t.1.y t.2.1.y) t.2.2.y / tr.size⌉
  let mz := ⌈max (max t.1.z t.2.1.z) t.2.2.z / tr.size⌉
  (cellCube ix mx iy my iz mz).foldl (fun tr cell => tr.addPair cell (id, i)) tr

/-- `Tree::insert`: index every triangle of the segment's mesh under `id`. -/
def Tree.insert (tr : Tree) (s : Segment) (id : ℕ) : Tree :=
  (s.mesh.trianglePoints.enum).foldl
    (fun tr p => tr.insertTriangle id p.1 p.2) tr

/-- `Tree::remove` is an empty TODO stub in the source. -/
def Tree.remove (tr : Tree) (_s : Segment) : Tree := tr

/-- Scan one cell's pair list, returning the first `Some` produced by
`Mesh::intersect_ray`.  The source indexes `segments[sid]` unchecked (a panic
when `sid` is out of range); an absent segment is skipped here. -/
def scanPairs (segments : List Segment) (ray : Vec3 × Vec3) :
    List (ℕ × ℕ) → Option Intersection
  | [] => none
  | (sid, tid) :: rest =>
    match (segments.get? sid).bind (fun s => s.mesh.intersect_ray ray tid) with
    | some t => some t
    | none => scanPairs segments ray rest

/-- Scan the cells in iteration order, returning the first hit. -/
def scanCells (tr : Tree) (segments : List Segment) (ray : Vec3 × Vec3) :
    List (ℤ × ℤ × ℤ) → Option Intersection
  | [] => none
  | c :: rest =>
    match scanPairs segments ray (tr.cells c) with
    | some t => some t
    | none => scanCells tr segments ray rest

/-- `Tree::intersect_ray`: iterate the cells of the ray's bounding-box range
and return the first hit, else `Intersection::None`. -/
def Tree.intersect_ray (tr : Tree) (ray : Vec3 × Vec3)
    (segments : List Segment) : Intersection :=
  let ix := ⌊min ray.1.x ray.2.x / tr.size⌋
  let iy := ⌊min ray.1.y ray.2.y / tr.size⌋
  let iz := ⌊min ray.1.z ray.2.z / tr.size⌋
  let mx := ⌈max ray.1.x ray.2.x / tr.size⌉
  let my := ⌈max ray.1.y ray.2.y / tr.size⌉
  let mz := ⌈max ray.1.z ray.2.z / tr.size⌉
  match scanCells tr segments ray (cellCube ix mx iy my iz mz) with
  | some t => t
  | none => Intersection.None

/-- `Course` from `course.rs`. -/
structure Course where
  segments : List Segment
  active_segment : ℕ
  tree : Tree

/-- `Course::new`: one Straight segment seeded at the origin, inserted into a
fresh grid of cell size `250`. -/
def Course.new (fuel : ℕ) : Course :=
  let tree := Tree.new 250
  let c := Segment.new fuel (Point.new 0 0 0 200 0)
  let tree := tree.insert c 0
  { segments := [c], active_segment := 0, tree := tree }

/-- `Course::start_point` (`self.segments[0]`; panics on an empty list, which
`Course::new` makes unreachable). -/
def Course.start_point (c : Course) : Vec3 :=
  match c.segments with
  | [] => 0
  | s :: _ => s.start_point

/-- `Course::intersect_ray`. -/
def Course.intersect_ray (c : Course) (ray : Vec3 × Vec3) : Intersection :=
  c.tree.intersect_ray ray c.segments

/-- `Course::edit`: delegate to the active segment when it exists, else do
nothing (the grid is never touched here — `Tree::insert` is only called from
`Course::new`, and `Tree::remove` never). -/
def Course.edit (c : Course) (keyboard : Keyboard) (fuel : ℕ) : Course :=
  if h : c.active_segment < c.segments.length then
    { c with
      segments := c.segments.set c.active_segment
        ((c.segments.get ⟨c.active_segment, h⟩).edit keyboard fuel) }
  else c

/-- Keyboard snapshot with only `I` pressed (translate `+100` on x) and no
modifier held — the edit used by the stale-grid scenario. -/
def kbI : Keyboard :=
  ⟨fun k => match k with | Key.I => true | _ => false, fun _ => false⟩

end

/-! ### Helper lemmas -/

theorem trackLoop_pos (cols len l i : ℕ) (h : i < l) :
    trackLoop cols len l i =
      band i cols len ++ trackLoop cols len l (i + cols + 1) := by
  rw [trackLoop]
  simp [h]

theorem trackLoop_neg (cols len l i : ℕ) (h : ¬ i < l) :
    trackLoop cols len l i = [] := by
  rw [trackLoop]
  simp [h]

theorem band_length (i cols len : ℕ) : (band i cols len).length = 6 * cols := by
  simp [band, List.length_flatMap, Function.comp_def, mul_comm]

theorem rowVertices_length (cols last index : ℕ) (fa ta : ℝ) (s : Row) :
    (rowVertices cols last index fa ta s).length = cols + 1 := by
  simp only [rowVertices, List.length_map, List.length_range]

theorem triangulate_fst_length (rows : List Row) (cols : ℕ) (fa ta : ℝ) :
    (triangulate rows cols fa ta).1.length = rows.length * (cols + 1) := by
  simp only [triangulate, List.length_flatMap]
  rw [List.map_congr_left (fun p _ => rowVertices_length cols
    (rows.length - 1) p.1 fa ta p.2)]
  simp [List.map_const', List.enum_length, mul_comm]

theorem triangulate_snd (rows : List Row) (cols : ℕ) (fa ta : ℝ) :
    (triangulate rows cols fa ta).2 =
      trackLoop cols (rows.length * (cols + 1))
        (rows.length * (cols + 1) - (cols + 1)) 0 := by
  have h := triangulate_fst_length rows cols fa ta
  simp only [triangulate] at h ⊢
  rw [h]

theorem triplesOf_mem :
    ∀ (xs : List ℕ) (tr : ℕ × ℕ × ℕ), tr ∈ triplesOf xs →
      tr.1 ∈ xs ∧ tr.2.1 ∈ xs ∧ tr.2.2 ∈ xs
  | [], tr, h => by simp [triplesOf] at h
  | [_], tr, h => by simp [triplesOf] at h
  | [_, _], tr, h => by simp [triplesOf] at h
  | a :: b :: c :: rest, tr, h => by
    simp only [triplesOf, List.mem_cons] at h
    rcases h with h | h
    · subst h
      simp
    · have := triplesOf_mem rest tr h
      simp only [List.mem_cons]
      tauto

theorem triplesOf_append :
    ∀ (xs ys : List ℕ), xs.length % 3 = 0 →
      triplesOf (xs ++ ys) = triplesOf xs ++ triplesOf ys
  | [], ys, _ => by simp [triplesOf]
  | [_], ys, h => by simp at h
  | [_, _], ys, h => by simp at h
  | a :: b :: c :: rest, ys, h => by
    have h' : rest.length % 3 = 0 := by
      simp only [List.length_cons] at h
      omega
    simp only [List.cons_append, triplesOf, List.append_eq]
    rw [triplesOf_append rest ys h']

theorem triplesOf_length :
    ∀ xs : List ℕ, (triplesOf xs).length = xs.length / 3
  | [] => by simp [triplesOf]
  | [_] => by simp [triplesOf]
  | [_, _] => by simp [triplesOf]
  | a :: b :: c :: rest => by
    simp only [triplesOf, List.length_cons, triplesOf_length rest]
    omega

theorem band_mem_bound (i cols len x : ℕ) (hx : x ∈ band i cols len)
    (hlen : i + 2 * cols + 2 ≤ len) : i ≤ x ∧ x < i + 2 * cols + 2 := by
  simp only [band, List.mem_flatMap, List.mem_range] at hx
  obtain ⟨b, hb, hmem⟩ := hx
  have h1 : (i + b + cols + 1) % len = i + b + cols + 1 :=
    Nat.mod_eq_of_lt (by omega)
  have h2 : (i + b + 1) % len = i + b + 1 := Nat.mod_eq_of_lt (by omega)
  have h3 : (i + b + cols + 2) % len = i + b + cols + 2 :=
    Nat.mod_eq_of_lt (by omega)
  simp only [List.mem_cons, List.not_mem_nil, or_false, h1, h2, h3] at hmem
  rcases hmem with h | h | h | h | h | h <;> omega

/-- Triples emitted by the index loop lie within a band of two consecutive
rows, provided `i` and `l` are row-aligned and one row of vertices lies past
`l`.  This is the structural fact behind the (non-)wrap-around claims. -/
theorem trackLoop_triples (cols len l i r : ℕ) (hi : i = r * (cols + 1))
    (hl : (cols + 1) ∣ l) (hlen : l + (cols + 1) = len) :
    ∀ tr ∈ triplesOf (trackLoop cols len l i),
      ∃ j, (j + 2) * (cols + 1) ≤ len ∧
        j * (cols + 1) ≤ tr.1 ∧ tr.1 < (j + 2) * (cols + 1) ∧
        j * (cols + 1) ≤ tr.2.1 ∧ tr.2.1 < (j + 2) * (cols + 1) ∧
        j * (cols + 1) ≤ tr.2.2 ∧ tr.2.2 < (j + 2) * (cols + 1) := by
  subst hi
  by_cases h : r * (cols + 1) < l
  · rw [trackLoop_pos cols len l _ h]
    have hstep : r * (cols + 1) + (cols + 1) ≤ l := by
      obtain ⟨m, hm⟩ := hl
      rw [hm, Nat.mul_comm (cols + 1) m] at h ⊢
      have hrm : r < m := lt_of_mul_lt_mul_right h (Nat.zero_le _)
      calc r * (cols + 1) + (cols + 1) = (r + 1) * (cols + 1) := by ring
        _ ≤ m * (cols + 1) := Nat.mul_le_mul_right _ hrm
    have hkey : (r + 2) * (cols + 1) = r * (cols + 1) + 2 * cols + 2 := by
      ring
    rw [triplesOf_append _ _ (by rw [band_length]; omega)]
    intro tr htr
    rcases List.mem_append.mp htr with hb | hrest
    · obtain ⟨m1, m2, m3⟩ := triplesOf_mem _ _ hb
      have hb1 := band_mem_bound _ cols len _ m1 (by omega)
      have hb2 := band_mem_bound _ cols len _ m2 (by omega)
      have hb3 := band_mem_bound _ cols len _ m3 (by omega)
      exact ⟨r, by omega, by omega, by omega, by omega, by omega,
        by omega, by omega⟩
    · have hnext : r * (cols + 1) + cols + 1 = (r + 1) * (cols + 1) := by ring
      rw [hnext] at hrest
      exact trackLoop_triples cols len l ((r + 1) * (cols + 1)) (r + 1)
        rfl hl hlen tr hrest
  · rw [trackLoop_neg cols len l _ h]
    simp [triplesOf]
termination_by l - r * (cols + 1)
decreasing_by
  have : r * (cols + 1) + (cols + 1) = (r + 1) * (cols + 1) := by ring
  omega

/-! ### Grid insertion facts (for the stale-entry scenario) -/

theorem Tree.addPair_size (tr : Tree) (c : ℤ × ℤ × ℤ) (q : ℕ × ℕ) :
    (tr.addPair c q).size = tr.size := rfl

theorem Tree.addPair_mem_preserved (tr : Tree) (c c' : ℤ × ℤ × ℤ)
    (q q' : ℕ × ℕ) (h : q ∈ tr.cells c) : q ∈ (tr.addPair c' q').cells c := by
  simp only [Tree.addPair]
  by_cases hc : c = c'
  · rw [if_pos hc]
    exact List.mem_append_left _ h
  · rw [if_neg hc]
    exact h

theorem Tree.addPair_mem_self (tr : Tree) (c : ℤ × ℤ × ℤ) (q : ℕ × ℕ) :
    q ∈ (tr.addPair c q).cells c := by
  simp [Tree.addPair]

theorem foldl_addPair_mem_preserved (q' : ℕ × ℕ) :
    ∀ (l : List (ℤ × ℤ × ℤ)) (tr : Tree) (c : ℤ × ℤ × ℤ) (q : ℕ × ℕ),
      q ∈ tr.cells c →
      q ∈ (l.foldl (fun tr cell => tr.addPair cell q') tr).cells c
  | [], _, _, _, h => h
  | c' :: rest, tr, c, q, h =>
    foldl_addPair_mem_preserved q' rest _ c q
      (Tree.addPair_mem_preserved tr c c' q q' h)

theorem foldl_addPair_mem_self (q' : ℕ × ℕ) :
    ∀ (l : List (ℤ × ℤ × ℤ)) (tr : Tree) (c : ℤ × ℤ × ℤ), c ∈ l →
      q' ∈ (l.foldl (fun tr cell => tr.addPair cell q') tr).cells c := by
  intro l
  induction l with
  | nil => intro tr c h; simp at h
  | cons c' rest ih =>
    intro tr c h
    rcases List.mem_cons.mp h with rfl | h
    · exact foldl_addPair_mem_preserved q' rest _ c q'
        (Tree.addPair_mem_self tr c q')
    · exact ih _ c h

theorem foldl_addPair_size (q' : ℕ × ℕ) :
    ∀ (l : List (ℤ × ℤ × ℤ)) (tr : Tree),
      (l.foldl (fun tr cell => tr.addPair cell q') tr).size = tr.size
  | [], _ => rfl
  | c :: rest, tr => by
    rw [List.foldl_cons, foldl_addPair_size q' rest]
    rfl

theorem Tree.insertTriangle_size (tr : Tree) (id i : ℕ)
    (t : Vec3 × Vec3 × Vec3) : (tr.insertTriangle id i t).size = tr.size :=
  foldl_addPair_size (id, i) _ tr

theorem Tree.insertTriangle_preserved (tr : Tree) (id i : ℕ)
    (t : Vec3 × Vec3 × Vec3) (cell : ℤ × ℤ × ℤ) (q : ℕ × ℕ)
    (h : q ∈ tr.cells cell) : q ∈ (tr.insertTriangle id i t).cells cell :=
  foldl_addPair_mem_preserved (id, i) _ tr cell q h

theorem cellRange_self_mem (lo hi : ℤ) (h : lo ≤ hi) : lo ∈ cellRange lo hi := by
  unfold cellRange
  refine List.mem_map.mpr ⟨0, ?_, by simp⟩
  rw [List.mem_range]
  omega

theorem cellCube_mem (ix mx iy my iz mz : ℤ) (hx : ix ≤ mx) (hy : iy ≤ my)
    (hz : iz ≤ mz) : (ix, iy, iz) ∈ cellCube ix mx iy my iz mz := by
  unfold cellCube
  refine List.mem_flatMap.mpr ⟨ix, cellRange_self_mem _ _ hx, ?_⟩
  refine List.mem_flatMap.mpr ⟨iy, cellRange_self_mem _ _ hy, ?_⟩
  exact List.mem_map.mpr ⟨iz, cellRange_self_mem _ _ hz, rfl⟩

theorem floor_div_le_ceil_div {a b : ℝ} (s : ℝ) (hs : 0 < s) (h : a ≤ b) :
    ⌊a / s⌋ ≤ ⌈b / s⌉ :=
  le_trans (Int.floor_le_floor ((div_le_div_iff_of_pos_right hs).mpr h))
    (Int.floor_le_ceil _)

theorem min3_le_max3 (a b c : ℝ) : min (min a b) c ≤ max (max a b) c :=
  le_trans (le_trans (min_le_left _ _) (min_le_left _ _))
    (le_trans (le_max_left _ _) (le_max_left _ _))

/-- Every triangle is appended to at least its min-corner cell. -/
theorem Tree.insertTriangle_mem (tr : Tree) (id i : ℕ)
    (t : Vec3 × Vec3 × Vec3) (hs : 0 < tr.size) :
    ∃ cell, (id, i) ∈ (tr.insertTriangle id i t).cells cell := by
  refine ⟨(⌊min (min t.1.x t.2.1.x) t.2.2.x / tr.size⌋,
           ⌊min (min t.1.y t.2.1.y) t.2.2.y / tr.size⌋,
           ⌊min (min t.1.z t.2.1.z) t.2.2.z / tr.size⌋), ?_⟩
  unfold Tree.insertTriangle
  apply foldl_addPair_mem_self
  exact cellCube_mem _ _ _ _ _ _
    (floor_div_le_ceil_div tr.size hs (min3_le_max3 _ _ _))
    (floor_div_le_ceil_div tr.size hs (min3_le_max3 _ _ _))
    (floor_div_le_ceil_div tr.size hs (min3_le_max3 _ _ _))

theorem foldl_insertTriangle_preserved (id : ℕ) :
    ∀ (l : List (ℕ × (Vec3 × Vec3 × Vec3))) (tr : Tree) (cell : ℤ × ℤ × ℤ)
      (q : ℕ × ℕ), q ∈ tr.cells cell →
      q ∈ (l.foldl (fun tr p => tr.insertTriangle id p.1 p.2) tr).cells cell
  | [], _, _, _, h => h
  | hd :: rest, tr, cell, q, h =>
    foldl_insertTriangle_preserved id rest _ cell q
      (Tree.insertTriangle_preserved tr id hd.1 hd.2 cell q h)

theorem foldl_insertTriangle_size (id : ℕ) :
    ∀ (l : List (ℕ × (Vec3 × Vec3 × Vec3))) (tr : Tree),
      (l.foldl (fun tr p => tr.insertTriangle id p.1 p.2) tr).size = tr.size
  | [], _ => rfl
  | hd :: rest, tr => by
    rw [List.foldl_cons, foldl_insertTriangle_size id rest,
      Tree.insertTriangle_size]

theorem foldl_insertTriangle_mem (id : ℕ) :
    ∀ (l : List (ℕ × (Vec3 × Vec3 × Vec3))) (tr : Tree), 0 < tr.size →
      ∀ p ∈ l, ∃ cell,
        (id, p.1) ∈ (l.foldl (fun tr p => tr.insertTriangle id p.1 p.2)
          tr).cells cell := by
  intro l
  induction l with
  | nil => intro tr _ p hp; simp at hp
  | cons hd rest ih =>
    intro tr hs p hp
    rcases List.mem_cons.mp hp with rfl | hp
    · obtain ⟨cell, hc⟩ := Tree.insertTriangle_mem tr id p.1 p.2 hs
      exact ⟨cell, foldl_insertTriangle_preserved id rest _ cell _ hc⟩
    · exact ih (tr.insertTriangle id hd.1 hd.2)
        (by rw [Tree.insertTriangle_size]; exact hs) p hp

/-- `Tree::insert` places `(id, i)` into at least one cell for every triangle
index `i` of the inserted segment's mesh. -/
theorem tree_insert_mem (tr : Tree) (s : Segment) (id i : ℕ)
    (hs : 0 < tr.size) (hi : i < s.mesh.trianglePoints.length) :
    ∃ cell, (id, i) ∈ (tr.insert s id).cells cell := by
  unfold Tree.insert
  have hlen : i < s.mesh.trianglePoints.enum.length := by
    simpa [List.enum_length] using hi
  have hmem : (i, s.mesh.trianglePoints.get ⟨i, hi⟩) ∈
      s.mesh.trianglePoints.enum := by
    rw [List.mk_mem_enum_iff_getElem?]
    exact List.getElem?_eq_getElem hi
  exact foldl_insertTriangle_mem id s.mesh.trianglePoints.enum tr hs _ hmem

/-! ### C6: Bezier endpoint interpolation -/

/-- C6: for every cubic Bezier control quad, the position evaluated with the
vertical component retained is `P0.pos` at parameter `0` and `P3.pos` at
parameter `1`, exactly. -/
theorem bezier_point_endpoints (bz : Bezier) :
    bz.point 0 true = bz.points.1.pos ∧
      bz.point 1 true = bz.points.2.2.2.pos := by
  constructor
  · simp only [Bezier.point]
    ext <;> simp
  · simp only [Bezier.point]
    ext <;> simp

/-! ### C8: out-of-range edits are no-ops -/

/-- C8: when the active piece index is not smaller than the number of pieces,
`Course::edit` changes nothing — the segments (endpoints, type, rows, mesh)
and the spatial grid are all left untouched, and nothing aborts. -/
theorem course_edit_out_of_range (c : Course) (kb : Keyboard) (fuel : ℕ)
    (h : c.segments.length ≤ c.active_segment) : c.edit kb fuel = c := by
  unfold Course.edit
  rw [dif_neg (not_lt.mpr h)]

/-- Witness for C8 at a concrete malformed course. -/
theorem course_edit_out_of_range_witness :
    ([] : List Segment).length ≤ 5 ∧
      Course.edit ⟨[], 5, Tree.new 250⟩ ⟨fun _ => false, fun _ => false⟩ 7 =
        ⟨[], 5, Tree.new 250⟩ :=
  ⟨Nat.zero_le 5,
    course_edit_out_of_range ⟨[], 5, Tree.new 250⟩
      ⟨fun _ => false, fun _ => false⟩ 7 (Nat.zero_le 5)⟩

/-! ### C10: degenerate row counts -/

/-- C10: with fewer than two rows and a positive column count, `triangulate`
still emits `rows.len() * (cols + 1)` vertices and an empty index list: the
guard `l = len - (cols + 1)` saturates to `0`, the index loop is never
entered, and in particular no `% len` with `len = 0` is ever evaluated. -/
theorem triangulate_short_rows (rows : List Row) (cols : ℕ) (fa ta : ℝ)
    (h1 : rows.length ≤ 1) (h2 : 0 < cols) :
    (triangulate rows cols fa ta).1.length = rows.length * (cols + 1) ∧
      (triangulate rows cols fa ta).2 = [] := by
  refine ⟨triangulate_fst_length rows cols fa ta, ?_⟩
  rw [triangulate_snd]
  have hz : rows.length * (cols + 1) - (cols + 1) = 0 := by
    interval_cases h : rows.length <;> simp
  rw [hz]
  exact trackLoop_neg _ _ _ _ (by omega)

/-! ### C1: no wrap-around band in the emitted index list -/

/-- C1 (amended): every triangle emitted by `triangulate` lies inside a band
of two consecutive rows `j`, `j + 1` with `j + 2 ≤ rows.len()` — the index
loop stops one row short of the end, every emitted index is already below the
total vertex count, so the `% len` reduction never fires and no triangle joins
the last row back onto row `0` (for any piece type). -/
theorem triangulate_band_structure (rows : List Row) (cols : ℕ) (fa ta : ℝ) :
    ∀ tr ∈ triplesOf (triangulate rows cols fa ta).2,
      ∃ j, j + 2 ≤ rows.length ∧
        j * (cols + 1) ≤ tr.1 ∧ tr.1 < (j + 2) * (cols + 1) ∧
        j * (cols + 1) ≤ tr.2.1 ∧ tr.2.1 < (j + 2) * (cols + 1) ∧
        j * (cols + 1) ≤ tr.2.2 ∧ tr.2.2 < (j + 2) * (cols + 1) := by
  intro tr htr
  rw [triangulate_snd] at htr
  rcases Nat.eq_zero_or_pos rows.length with hR | hR
  · rw [hR] at htr
    rw [trackLoop_neg _ _ _ _ (by omega)] at htr
    simp [triplesOf] at htr
  · obtain ⟨k, hk⟩ : ∃ k, rows.length = k + 1 := ⟨rows.length - 1, by omega⟩
    rw [hk] at htr ⊢
    have hl : (k + 1) * (cols + 1) - (cols + 1) = k * (cols + 1) := by
      have : (k + 1) * (cols + 1) = k * (cols + 1) + (cols + 1) := by ring
      omega
    rw [hl] at htr
    have hlen : k * (cols + 1) + (cols + 1) = (k + 1) * (cols + 1) := by ring
    obtain ⟨j, hj, hb⟩ := trackLoop_triples cols ((k + 1) * (cols + 1))
      (k * (cols + 1)) 0 0 (by simp) ⟨k, by ring⟩ hlen tr htr
    exact ⟨j, Nat.le_of_mul_le_mul_right hj (Nat.succ_pos cols), hb⟩

/-- Witness for C1 (amended) at a concrete three-row, one-column mesh: the
triple `(2, 4, 3)` of the emitted list lies in the band of rows `1`, `2`. -/
theorem triangulate_band_structure_witness :
    ∃ j, j + 2 ≤ 3 ∧
      j * 2 ≤ 2 ∧ 2 < (j + 2) * 2 ∧ j * 2 ≤ 4 ∧ 4 < (j + 2) * 2 ∧
      j * 2 ≤ 3 ∧ 3 < (j + 2) * 2 := by
  have hmem : ((2, 4, 3) : ℕ × ℕ × ℕ) ∈ triplesOf
      (triangulate [⟨0, 0, 0, 0, 0⟩, ⟨0, 0, 0, 0, 0⟩, ⟨0, 0, 0, 0, 0⟩]
        1 0 0).2 := by
    rw [triangulate_snd]
    show ((2, 4, 3) : ℕ × ℕ × ℕ) ∈ triplesOf (trackLoop 1 6 4 0)
    rw [trackLoop_pos _ _ _ _ (by norm_num), trackLoop_pos _ _ _ _ (by norm_num),
      trackLoop_neg _ _ _ _ (by norm_num)]
    decide
  simpa using triangulate_band_structure
    [⟨0, 0, 0, 0, 0⟩, ⟨0, 0, 0, 0, 0⟩, ⟨0, 0, 0, 0, 0⟩] 1 0 0 (2, 4, 3) hmem

/-- Counterexample to C1 as stated: for a three-row, one-column sweep no
emitted triangle has a vertex in row `0` (index `< 2`) together with a vertex
in the last row (index `≥ 4`) — there is no wrap-around band joining the last
row back onto row `0`. -/
theorem triangulate_no_wrap_counterexample :
    ¬ ∃ tr ∈ triplesOf
        (triangulate [⟨0, 0, 0, 0, 0⟩, ⟨0, 0, 0, 0, 0⟩, ⟨0, 0, 0, 0, 0⟩]
          1 0 0).2,
      (tr.1 < 2 ∨ tr.2.1 < 2 ∨ tr.2.2 < 2) ∧
      (4 ≤ tr.1 ∨ 4 ≤ tr.2.1 ∨ 4 ≤ tr.2.2) := by
  rw [triangulate_snd]
  show ¬ ∃ tr ∈ triplesOf (trackLoop 1 6 4 0), _
  rw [trackLoop_pos _ _ _ _ (by norm_num), trackLoop_pos _ _ _ _ (by norm_num),
    trackLoop_neg _ _ _ _ (by norm_num)]
  decide

/-! ### C4: the loop generator never samples the second circumference -/

theorem loop_genLoop_succ (lp : Loop) (step length angle ox oz t : ℝ)
    (fuel : ℕ) :
    lp.genLoop step length angle ox oz (fuel + 1) t =
      if t < length * 2 then
        lp.rowAt length angle ox oz t ::
          (if length ≤ t then []
           else lp.genLoop step length angle ox oz fuel (t + step))
      else [] := rfl

/-- Rows emitted from state `t` satisfy `t + (count - 2) * step < length`:
the `break` at `t ≥ length` fires at most one row past the circumference. -/
theorem loop_genLoop_length_bound (lp : Loop) (step length angle ox oz : ℝ) :
    ∀ (fuel : ℕ) (t : ℝ),
      2 ≤ (lp.genLoop step length angle ox oz fuel t).length →
      t + (((lp.genLoop step length angle ox oz fuel t).length : ℝ) - 2) *
        step < length := by
  intro fuel
  induction fuel with
  | zero => intro t h; simp [Loop.genLoop] at h
  | succ fuel ih =>
    intro t h
    rw [loop_genLoop_succ] at h ⊢
    by_cases h1 : t < length * 2
    · rw [if_pos h1] at h ⊢
      by_cases h2 : length ≤ t
      · rw [if_pos h2] at h
        simp at h
      · rw [if_neg h2] at h ⊢
        push_neg at h2
        simp only [List.length_cons] at h ⊢
        rcases Nat.lt_or_ge
          (lp.genLoop step length angle ox oz fuel (t + step)).length 2
          with hm2 | hm2
        · have hm1 :
              (lp.genLoop step length angle ox oz fuel (t + step)).length
                = 1 := by omega
          rw [hm1]
          norm_num
          linarith
        · have hih := ih (t + step) hm2
          have hr : t +
              (((lp.genLoop step length angle ox oz fuel
                (t + step)).length : ℝ) + 1 - 2) * step =
              (t + step) +
              (((lp.genLoop step length angle ox oz fuel
                (t + step)).length : ℝ) - 2) * step := by ring
          push_cast
          rw [hr]
          exact hih
    · rw [if_neg h1] at h
      simp at h

/-- Length of the concrete counterexample run: radius `50/π` (circumference
`100`), step `30`, fuel `100` — the loop emits rows at `t = 0, 30, 60, 90`
and a final clamped row at `t = 120 ≥ 100`, five in all. -/
theorem loop_c4_example_length :
    (Loop.generate_segments
        (Loop.new ⟨⟨0, 0, 0⟩, 1, 0⟩ ⟨⟨0, 0, 0⟩, 1, 0⟩ (50 / Real.pi) 0)
        30 100).length = 5 := by
  have hpi : (50 / Real.pi) * Real.pi * 2 = 100 := by
    field_simp
    ring
  simp only [Loop.generate_segments, Loop.new] at *
  rw [hpi]
  rw [show (100 : ℕ) = ((((95 + 1) + 1) + 1) + 1) + 1 from rfl]
  rw [loop_genLoop_succ,
    if_pos (by norm_num : (0 : ℝ) < 100 * 2),
    if_neg (by norm_num : ¬ (100 : ℝ) ≤ 0)]
  rw [loop_genLoop_succ,
    if_pos (by norm_num : (0 : ℝ) + 30 < 100 * 2),
    if_neg (by norm_num : ¬ (100 : ℝ) ≤ 0 + 30)]
  rw [loop_genLoop_succ,
    if_pos (by norm_num : (0 : ℝ) + 30 + 30 < 100 * 2),
    if_neg (by norm_num : ¬ (100 : ℝ) ≤ 0 + 30 + 30)]
  rw [loop_genLoop_succ,
    if_pos (by norm_num : (0 : ℝ) + 30 + 30 + 30 < 100 * 2),
    if_neg (by norm_num : ¬ (100 : ℝ) ≤ 0 + 30 + 30 + 30)]
  rw [loop_genLoop_succ,
    if_pos (by norm_num : (0 : ℝ) + 30 + 30 + 30 + 30 < 100 * 2),
    if_pos (by norm_num : (100 : ℝ) ≤ 0 + 30 + 30 + 30 + 30)]
  rfl

/-- Counterexample to C4 as stated: for the loop of circumference `100` with
step `30`, sampling over the claimed range `[0, 2 · circumference)` would
append at least seven rows (`t = 0, 30, ..., 180`), but the generator emits
exactly five — it breaks at the first `t ≥ circumference` and never samples
the second pass. -/
theorem loop_second_pass_counterexample :
    (Loop.generate_segments
        (Loop.new ⟨⟨0, 0, 0⟩, 1, 0⟩ ⟨⟨0, 0, 0⟩, 1, 0⟩ (50 / Real.pi) 0)
        30 100).length = 5 ∧
      ¬ 7 ≤ (Loop.generate_segments
        (Loop.new ⟨⟨0, 0, 0⟩, 1, 0⟩ ⟨⟨0, 0, 0⟩, 1, 0⟩ (50 / Real.pi) 0)
        30 100).length := by
  rw [loop_c4_example_length]
  omega

/-- C4 (amended): for every loop, step and fuel, whenever at least two rows
come out, `(count - 2) · step < circumference` (`radius·π·2`): the parameter
range of the emitted rows never extends into the second circumference pass
asserted by the claim — sampling is cut off around one circumference, not
two. -/
theorem loop_one_pass (lp : Loop) (step : ℝ) (fuel : ℕ)
    (h : 2 ≤ (lp.generate_segments step fuel).length) :
    (((lp.generate_segments step fuel).length : ℝ) - 2) * step <
      lp.radius * Real.pi * 2 := by
  have := loop_genLoop_length_bound lp step (lp.radius * Real.pi * 2)
    (lp.angle * (Real.pi / 180))
    (Real.sin ((lp.angle - 90) * (Real.pi / 180)) * lp.width)
    (Real.cos ((lp.angle - 90) * (Real.pi / 180)) * lp.width) fuel 0
    (by simpa [Loop.generate_segments] using h)
  simpa [Loop.generate_segments] using this

/-- Witness for C4 (amended) at the concrete counterexample loop. -/
theorem loop_one_pass_witness :
    (((Loop.generate_segments
        (Loop.new ⟨⟨0, 0, 0⟩, 1, 0⟩ ⟨⟨0, 0, 0⟩, 1, 0⟩ (50 / Real.pi) 0)
        30 100).length : ℝ) - 2) * 30 <
      (Loop.new ⟨⟨0, 0, 0⟩, 1, 0⟩ ⟨⟨0, 0, 0⟩, 1, 0⟩
        (50 / Real.pi) 0).radius * Real.pi * 2 :=
  loop_one_pass _ 30 100 (by rw [loop_c4_example_length]; norm_num)

/-! ### C5: Bezier sampling is monotone and ends exactly at `t = 1` -/

theorem bez_genLoop_succ (bz : Bezier) (step t : ℝ) (fuel : ℕ) :
    bz.genLoop step (fuel + 1) t =
      bz.rowAt t ::
        (if 1 ≤ t then [] else bz.genLoop step fuel (bz.stepAt step t)) := rfl

theorem bez_paramList_succ (bz : Bezier) (step t : ℝ) (fuel : ℕ) :
    bz.paramList step (fuel + 1) t =
      t :: (if 1 ≤ t then []
            else bz.paramList step fuel (bz.stepAt step t)) := rfl

theorem bez_stepAt_gt (bz : Bezier) (step t : ℝ) (hstep : 0 < step)
    (hlen : 0 < (bz.derivative t).magnitude) : t < bz.stepAt step t := by
  simp only [Bezier.stepAt]
  rw [if_neg (ne_of_gt hlen)]
  have : 0 < step / (bz.derivative t).magnitude := div_pos hstep hlen
  linarith

/-- Invariant of the Bezier sampling loop: from a state `0 ≤ t`, provided the
loop completes within the fuel and the derivative magnitude is positive below
`t = 1`, the visited raw parameters start at `t`, their clamped images
`min · 1` are strictly increasing and end at exactly `1`, and the emitted
rows are precisely the rows at the visited parameters. -/
theorem bez_loop_invariant (bz : Bezier) (step : ℝ) (hstep : 0 < step)
    (hderiv : ∀ u, 0 ≤ u → u < 1 → 0 < (bz.derivative u).magnitude) :
    ∀ (fuel : ℕ) (t : ℝ), 0 ≤ t → bz.loopDone step fuel t →
      (bz.paramList step fuel t).head? = some t ∧
      List.Chain' (· < ·) ((bz.paramList step fuel t).map (fun x => min x 1)) ∧
      ((bz.paramList step fuel t).map (fun x => min x 1)).getLast? = some 1 ∧
      bz.genLoop step fuel t = (bz.paramList step fuel t).map bz.rowAt := by
  intro fuel
  induction fuel with
  | zero => intro t _ hdone; exact absurd hdone (by simp [Bezier.loopDone])
  | succ fuel ih =>
    intro t ht0 hdone
    rw [bez_paramList_succ, bez_genLoop_succ]
    rcases hdone with h1 | ⟨h1, hdone⟩
    · rw [if_pos h1, if_pos h1]
      refine ⟨rfl, by simp, ?_, by simp⟩
      simp [min_eq_right h1]
    · rw [if_neg h1, if_neg h1]
      push_neg at h1
      have hlen : 0 < (bz.derivative t).magnitude := hderiv t ht0 h1
      have htlt : t < bz.stepAt step t := bez_stepAt_gt bz step t hstep hlen
      obtain ⟨ihead, ichain, ilast, irows⟩ := ih (bz.stepAt step t)
        (le_of_lt (lt_of_le_of_lt ht0 htlt)) hdone
      have hne : bz.paramList step fuel (bz.stepAt step t) ≠ [] := by
        intro hc
        rw [hc] at ihead
        simp at ihead
      refine ⟨rfl, ?_, ?_, ?_⟩
      · rw [List.map_cons, List.chain'_cons']
        refine ⟨?_, ichain⟩
        intro y hy
        simp only [List.head?_map, ihead, Option.map_some', Option.mem_def,
          Option.some.injEq] at hy
        subst hy
        rw [min_eq_left (le_of_lt h1)]
        exact lt_min htlt h1
      · obtain ⟨p, P', hP⟩ := List.exists_cons_of_ne_nil hne
        rw [hP, List.map_cons] at ilast
        rw [List.map_cons, hP, List.map_cons, List.getLast?_cons_cons]
        exact ilast
      · rw [List.map_cons, irows]

/-- C5: for a positive step and positive derivative magnitude on `[0, 1)`,
whenever the sampling loop of `Bezier::generate_segments` completes, the rows
come out exactly at the visited parameters, whose clamped values `min t 1` are
strictly increasing, and the final row is evaluated at exactly `t = 1`. -/
theorem bezier_rows_monotone_final (bz : Bezier) (step : ℝ) (fuel : ℕ)
    (hstep : 0 < step)
    (hderiv : ∀ u, 0 ≤ u → u < 1 → 0 < (bz.derivative u).magnitude)
    (hdone : bz.loopDone step fuel 0) :
    bz.generate_segments step fuel = (bz.paramList step fuel 0).map bz.rowAt ∧
      List.Chain' (· < ·)
        ((bz.paramList step fuel 0).map (fun x => min x 1)) ∧
      ((bz.paramList step fuel 0).map (fun x => min x 1)).getLast? = some 1 := by
  obtain ⟨_, hchain, hlast, hrows⟩ :=
    bez_loop_invariant bz step hstep hderiv fuel 0 le_rfl hdone
  exact ⟨hrows, hchain, hlast⟩

theorem bez_loopDone_succ (bz : Bezier) (step t : ℝ) (fuel : ℕ) :
    bz.loopDone step (fuel + 1) t =
      (1 ≤ t ∨ (¬ 1 ≤ t ∧ bz.loopDone step fuel (bz.stepAt step t))) := rfl

/-- Witness for C5 on the unit-speed cubic through `(0,0,0) .. (1,0,0)` with
step `0.6` and fuel `3`: the loop visits `t = 0, 0.6, 1.2` and completes. -/
theorem bezier_rows_monotone_final_witness :
    (Bezier.new ⟨⟨0, 0, 0⟩, 0, 0⟩ ⟨⟨1/3, 0, 0⟩, 0, 0⟩ ⟨⟨2/3, 0, 0⟩, 0, 0⟩
        ⟨⟨1, 0, 0⟩, 0, 0⟩).generate_segments 0.6 3 =
      ((Bezier.new ⟨⟨0, 0, 0⟩, 0, 0⟩ ⟨⟨1/3, 0, 0⟩, 0, 0⟩ ⟨⟨2/3, 0, 0⟩, 0, 0⟩
        ⟨⟨1, 0, 0⟩, 0, 0⟩).paramList 0.6 3 0).map
        (Bezier.new ⟨⟨0, 0, 0⟩, 0, 0⟩ ⟨⟨1/3, 0, 0⟩, 0, 0⟩ ⟨⟨2/3, 0, 0⟩, 0, 0⟩
          ⟨⟨1, 0, 0⟩, 0, 0⟩).rowAt ∧
    List.Chain' (· < ·)
      (((Bezier.new ⟨⟨0, 0, 0⟩, 0, 0⟩ ⟨⟨1/3, 0, 0⟩, 0, 0⟩ ⟨⟨2/3, 0, 0⟩, 0, 0⟩
        ⟨⟨1, 0, 0⟩, 0, 0⟩).paramList 0.6 3 0).map (fun x => min x 1)) ∧
    (((Bezier.new ⟨⟨0, 0, 0⟩, 0, 0⟩ ⟨⟨1/3, 0, 0⟩, 0, 0⟩ ⟨⟨2/3, 0, 0⟩, 0, 0⟩
        ⟨⟨1, 0, 0⟩, 0, 0⟩).paramList 0.6 3 0).map
        (fun x => min x 1)).getLast? = some 1 := by
  have hv : ∀ u : ℝ,
      (Bezier.new ⟨⟨0, 0, 0⟩, 0, 0⟩ ⟨⟨1/3, 0, 0⟩, 0, 0⟩ ⟨⟨2/3, 0, 0⟩, 0, 0⟩
        ⟨⟨1, 0, 0⟩, 0, 0⟩).derivative u = ⟨1, 0, 0⟩ := by
    intro u
    simp only [Bezier.derivative, Bezier.new]
    ext <;> simp <;> ring
  have hmag : ∀ u : ℝ,
      ((Bezier.new ⟨⟨0, 0, 0⟩, 0, 0⟩ ⟨⟨1/3, 0, 0⟩, 0, 0⟩ ⟨⟨2/3, 0, 0⟩, 0, 0⟩
        ⟨⟨1, 0, 0⟩, 0, 0⟩).derivative u).magnitude = 1 := by
    intro u
    rw [hv u]
    simp [Vec3.magnitude, Vec3.dot]
  have hstepAt : ∀ t : ℝ,
      (Bezier.new ⟨⟨0, 0, 0⟩, 0, 0⟩ ⟨⟨1/3, 0, 0⟩, 0, 0⟩ ⟨⟨2/3, 0, 0⟩, 0, 0⟩
        ⟨⟨1, 0, 0⟩, 0, 0⟩).stepAt 0.6 t = t + 0.6 := by
    intro t
    simp only [Bezier.stepAt]
    rw [hmag t]
    rw [if_neg (by norm_num)]
    norm_num
  have hdone : (Bezier.new ⟨⟨0, 0, 0⟩, 0, 0⟩ ⟨⟨1/3, 0, 0⟩, 0, 0⟩
      ⟨⟨2/3, 0, 0⟩, 0, 0⟩ ⟨⟨1, 0, 0⟩, 0, 0⟩).loopDone 0.6 3 0 := by
    rw [show (3 : ℕ) = ((0 + 1) + 1) + 1 from rfl]
    rw [bez_loopDone_succ]
    refine Or.inr ⟨by norm_num, ?_⟩
    rw [hstepAt]
    rw [bez_loopDone_succ]
    refine Or.inr ⟨by norm_num, ?_⟩
    rw [hstepAt]
    rw [bez_loopDone_succ]
    exact Or.inl (by norm_num)
  exact bezier_rows_monotone_final _ 0.6 3 (by norm_num)
    (fun u hu0 hu1 => by rw [hmag u]; norm_num) hdone

/-! ### C3 / C7: the ray-triangle kernel -/

/-- What a `PointAndNormal` outcome of `intersect_ray_triangle` pins down:
the winding normal is nonzero, the parallel guard failed, the point is the
plane intersection of the segment, and the normal is the negated normalized
winding normal. -/
theorem intersect_hit_elim (r : Vec3 × Vec3) (t0 t1 t2 p nrm : Vec3)
    (h : intersect_ray_triangle r t0 t1 t2 =
      Intersection.PointAndNormal p nrm) :
    Vec3.cross (t1 - t0) (t2 - t0) ≠ 0 ∧
    ¬ |Vec3.dot (Vec3.cross (t1 - t0) (t2 - t0)) (r.2 - r.1)| < 0.000001 ∧
    p = r.1 + ((-(Vec3.dot (Vec3.cross (t1 - t0) (t2 - t0)) (r.1 - t0))) /
      (Vec3.dot (Vec3.cross (t1 - t0) (t2 - t0)) (r.2 - r.1))) • (r.2 - r.1) ∧
    nrm = -(Vec3.normalize (Vec3.cross (t1 - t0) (t2 - t0))) := by
  simp only [intersect_ray_triangle, Vec3.is_zero] at h
  split_ifs at h
  all_goals
    first
      | exact absurd h (fun hc => Intersection.noConfusion hc)
      | (simp only [Intersection.PointAndNormal.injEq] at h
         exact ⟨by assumption, by assumption, h.1.symm, h.2.symm⟩)

/-- C3 (amended): the normal returned with a hit is always the negated
normalized winding normal `-(u × v).normalize()`; it opposes the ray exactly
when the winding normal `u × v` has non-negative dot product with the ray
direction — for the opposite vertex order the returned normal points along
the ray, so no sign correction against the ray takes place. -/
theorem intersect_normal_sign (r : Vec3 × Vec3) (t0 t1 t2 p nrm : Vec3)
    (h : intersect_ray_triangle r t0 t1 t2 =
      Intersection.PointAndNormal p nrm) :
    nrm = -(Vec3.normalize (Vec3.cross (t1 - t0) (t2 - t0))) ∧
    (Vec3.dot nrm (r.2 - r.1) ≤ 0 ↔
      0 ≤ Vec3.dot (Vec3.cross (t1 - t0) (t2 - t0)) (r.2 - r.1)) := by
  obtain ⟨hnz, hb, hp, hn⟩ := intersect_hit_elim r t0 t1 t2 p nrm h
  refine ⟨hn, ?_⟩
  have hmag : 0 < (Vec3.cross (t1 - t0) (t2 - t0)).magnitude :=
    Vec3.magnitude_pos _ hnz
  have hdot : Vec3.dot nrm (r.2 - r.1) =
      -((1 / (Vec3.cross (t1 - t0) (t2 - t0)).magnitude) *
        Vec3.dot (Vec3.cross (t1 - t0) (t2 - t0)) (r.2 - r.1)) := by
    rw [hn, Vec3.normalize, Vec3.dot_neg_left, Vec3.dot_smul_left]
  rw [hdot, neg_nonpos]
  exact mul_nonneg_iff_of_pos_left (one_div_pos.mpr hmag)

/-- Concrete hit with the winding normal pointing along the ray: the returned
normal `(0, 1, 0)` opposes the downward ray. -/
theorem intersect_hit_example :
    intersect_ray_triangle ((⟨0, 1, 0⟩ : Vec3), (⟨0, -1, 0⟩ : Vec3))
        ⟨-1, 0, -1⟩ ⟨1, 0, -1⟩ ⟨0, 0, 2⟩ =
      Intersection.PointAndNormal ⟨0, 0, 0⟩ ⟨0, 1, 0⟩ := by
  have hs : Real.sqrt 36 = 6 := by
    rw [show (36 : ℝ) = 6 ^ 2 by norm_num]
    exact Real.sqrt_sq (by norm_num)
  simp only [intersect_ray_triangle]
  norm_num [Vec3.is_zero, Vec3.ext_iff, Vec3.normalize, Vec3.magnitude, hs]

/-- The same hit with the ray's endpoints swapped: same point, same normal. -/
theorem intersect_hit_example_swapped :
    intersect_ray_triangle ((⟨0, -1, 0⟩ : Vec3), (⟨0, 1, 0⟩ : Vec3))
        ⟨-1, 0, -1⟩ ⟨1, 0, -1⟩ ⟨0, 0, 2⟩ =
      Intersection.PointAndNormal ⟨0, 0, 0⟩ ⟨0, 1, 0⟩ := by
  have hs : Real.sqrt 36 = 6 := by
    rw [show (36 : ℝ) = 6 ^ 2 by norm_num]
    exact Real.sqrt_sq (by norm_num)
  simp only [intersect_ray_triangle]
  norm_num [Vec3.is_zero, Vec3.ext_iff, Vec3.normalize, Vec3.magnitude, hs]

/-- Counterexample to C3 as stated: with the triangle's vertex order flipped
(`t1` and `t2` exchanged relative to `intersect_hit_example`), the ray from
`(0,1,0)` to `(0,-1,0)` still hits at the origin, but the returned normal
`(0,-1,0)` has strictly positive dot product with the ray direction — it
points along the ray instead of opposing it. -/
theorem intersect_normal_not_opposed_counterexample :
    intersect_ray_triangle ((⟨0, 1, 0⟩ : Vec3), (⟨0, -1, 0⟩ : Vec3))
        ⟨-1, 0, -1⟩ ⟨0, 0, 2⟩ ⟨1, 0, -1⟩ =
      Intersection.PointAndNormal ⟨0, 0, 0⟩ ⟨0, -1, 0⟩ ∧
    0 < Vec3.dot ⟨0, -1, 0⟩ ((⟨0, -1, 0⟩ : Vec3) - ⟨0, 1, 0⟩) := by
  constructor
  · have hs : Real.sqrt 36 = 6 := by
      rw [show (36 : ℝ) = 6 ^ 2 by norm_num]
      exact Real.sqrt_sq (by norm_num)
    simp only [intersect_ray_triangle]
    norm_num [Vec3.is_zero, Vec3.ext_iff, Vec3.normalize, Vec3.magnitude, hs]
  · norm_num

/-- Witness for C3 (amended) at the concrete hit of `intersect_hit_example`. -/
theorem intersect_normal_sign_witness :
    (⟨0, 1, 0⟩ : Vec3) = -(Vec3.normalize
      (Vec3.cross ((⟨1, 0, -1⟩ : Vec3) - ⟨-1, 0, -1⟩)
        ((⟨0, 0, 2⟩ : Vec3) - ⟨-1, 0, -1⟩))) ∧
    (Vec3.dot ⟨0, 1, 0⟩ ((⟨0, -1, 0⟩ : Vec3) - ⟨0, 1, 0⟩) ≤ 0 ↔
      0 ≤ Vec3.dot (Vec3.cross ((⟨1, 0, -1⟩ : Vec3) - ⟨-1, 0, -1⟩)
        ((⟨0, 0, 2⟩ : Vec3) - ⟨-1, 0, -1⟩))
        ((⟨0, -1, 0⟩ : Vec3) - ⟨0, 1, 0⟩)) :=
  intersect_normal_sign ((⟨0, 1, 0⟩ : Vec3), (⟨0, -1, 0⟩ : Vec3))
    ⟨-1, 0, -1⟩ ⟨1, 0, -1⟩ ⟨0, 0, 2⟩ ⟨0, 0, 0⟩ ⟨0, 1, 0⟩
    intersect_hit_example

/-- Result is `Degenerate` exactly when the winding normal is zero — a
condition untouched by the ray. -/
theorem intersect_degenerate_iff (r : Vec3 × Vec3) (t0 t1 t2 : Vec3) :
    intersect_ray_triangle r t0 t1 t2 = Intersection.Degenerate ↔
      Vec3.cross (t1 - t0) (t2 - t0) = 0 := by
  simp only [intersect_ray_triangle, Vec3.is_zero]
  split_ifs <;> simp_all

/-- Result is `Parallel` exactly when the winding normal is nonzero and the
plane/direction dot product is below the guard. -/
theorem intersect_parallel_iff (r : Vec3 × Vec3) (t0 t1 t2 : Vec3) :
    intersect_ray_triangle r t0 t1 t2 = Intersection.Parallel ↔
      (¬ Vec3.cross (t1 - t0) (t2 - t0) = 0 ∧
        |Vec3.dot (Vec3.cross (t1 - t0) (t2 - t0)) (r.2 - r.1)| <
          0.000001) := by
  simp only [intersect_ray_triangle, Vec3.is_zero]
  split_ifs <;> simp_all

/-- C7: swapping the ray's endpoints leaves the `Degenerate` and `Parallel`
classifications unchanged, and when both orderings hit, the reported
intersection point is the same. -/
theorem intersect_swap_ray (r0 r1 t0 t1 t2 : Vec3) :
    (intersect_ray_triangle (r0, r1) t0 t1 t2 = Intersection.Degenerate ↔
      intersect_ray_triangle (r1, r0) t0 t1 t2 = Intersection.Degenerate) ∧
    (intersect_ray_triangle (r0, r1) t0 t1 t2 = Intersection.Parallel ↔
      intersect_ray_triangle (r1, r0) t0 t1 t2 = Intersection.Parallel) ∧
    (∀ p n p' n',
      intersect_ray_triangle (r0, r1) t0 t1 t2 =
        Intersection.PointAndNormal p n →
      intersect_ray_triangle (r1, r0) t0 t1 t2 =
        Intersection.PointAndNormal p' n' → p = p') := by
  have hdirneg : (r0 - r1 : Vec3) = -(r1 - r0) := by ext <;> simp <;> ring
  refine ⟨?_, ?_, ?_⟩
  · rw [intersect_degenerate_iff, intersect_degenerate_iff]
  · rw [intersect_parallel_iff, intersect_parallel_iff]
    have h2 : Vec3.dot (Vec3.cross (t1 - t0) (t2 - t0)) ((r1, r0).2 - (r1, r0).1) =
        -(Vec3.dot (Vec3.cross (t1 - t0) (t2 - t0)) ((r0, r1).2 - (r0, r1).1)) := by
      show Vec3.dot _ (r0 - r1) = -(Vec3.dot _ (r1 - r0))
      rw [hdirneg, Vec3.dot_neg_right]
    rw [h2, abs_neg]
  · intro p n p' n' h h'
    obtain ⟨hnz, hb, hp, _⟩ := intersect_hit_elim (r0, r1) t0 t1 t2 p n h
    obtain ⟨_, _, hp', _⟩ := intersect_hit_elim (r1, r0) t0 t1 t2 p' n' h'
    have hsum : ((r0 - t0) + (r1 - r0) : Vec3) = r1 - t0 := by
      ext <;> simp <;> ring
    have hsplit : Vec3.dot (Vec3.cross (t1 - t0) (t2 - t0)) (r1 - t0) =
        Vec3.dot (Vec3.cross (t1 - t0) (t2 - t0)) (r0 - t0) +
        Vec3.dot (Vec3.cross (t1 - t0) (t2 - t0)) (r1 - r0) := by
      rw [← hsum, Vec3.dot_add_right]
    have hD' : Vec3.dot (Vec3.cross (t1 - t0) (t2 - t0)) (r0 - r1) =
        -(Vec3.dot (Vec3.cross (t1 - t0) (t2 - t0)) (r1 - r0)) := by
      rw [hdirneg, Vec3.dot_neg_right]
    have hbne : Vec3.dot (Vec3.cross (t1 - t0) (t2 - t0)) (r1 - r0) ≠ 0 := by
      intro hc
      apply hb
      show |Vec3.dot (Vec3.cross (t1 - t0) (t2 - t0)) (r1 - r0)| < 0.000001
      rw [hc]
      norm_num
    have hp2 : p = r0 +
        ((-(Vec3.dot (Vec3.cross (t1 - t0) (t2 - t0)) (r0 - t0))) /
          (Vec3.dot (Vec3.cross (t1 - t0) (t2 - t0)) (r1 - r0))) •
          (r1 - r0) := hp
    have hp2' : p' = r1 +
        ((-(Vec3.dot (Vec3.cross (t1 - t0) (t2 - t0)) (r1 - t0))) /
          (Vec3.dot (Vec3.cross (t1 - t0) (t2 - t0)) (r0 - r1))) •
          (r0 - r1) := hp'
    rw [hsplit, hD', hdirneg] at hp2'
    rw [hp2, hp2']
    ext <;> simp <;> field_simp [hbne] <;> ring

/-- Witness for C7 at a concrete ray and triangle intersecting both ways:
both orderings hit, and the reported point `(0,0,0)` agrees. -/
theorem intersect_swap_ray_witness :
    intersect_ray_triangle ((⟨0, 1, 0⟩ : Vec3), (⟨0, -1, 0⟩ : Vec3))
        ⟨-1, 0, -1⟩ ⟨1, 0, -1⟩ ⟨0, 0, 2⟩ =
      Intersection.PointAndNormal ⟨0, 0, 0⟩ ⟨0, 1, 0⟩ ∧
    intersect_ray_triangle ((⟨0, -1, 0⟩ : Vec3), (⟨0, 1, 0⟩ : Vec3))
        ⟨-1, 0, -1⟩ ⟨1, 0, -1⟩ ⟨0, 0, 2⟩ =
      Intersection.PointAndNormal ⟨0, 0, 0⟩ ⟨0, 1, 0⟩ ∧
    (⟨0, 0, 0⟩ : Vec3) = ⟨0, 0, 0⟩ :=
  ⟨intersect_hit_example, intersect_hit_example_swapped,
    (intersect_swap_ray ⟨0, 1, 0⟩ ⟨0, -1, 0⟩ ⟨-1, 0, -1⟩ ⟨1, 0, -1⟩
      ⟨0, 0, 2⟩).2.2 ⟨0, 0, 0⟩ ⟨0, 1, 0⟩ ⟨0, 0, 0⟩ ⟨0, 1, 0⟩
      intersect_hit_example intersect_hit_example_swapped⟩

/-! ### C9: the public query returns only `None` or `PointAndNormal` -/

/-- `Mesh::intersect_ray` returns `Some` only with a `PointAndNormal`. -/
theorem mesh_intersect_ray_some (m : Mesh) (ray : Vec3 × Vec3) (tid : ℕ)
    (t : Intersection) (h : m.intersect_ray ray tid = some t) :
    ∃ p n, t = Intersection.PointAndNormal p n := by
  unfold Mesh.intersect_ray at h
  split at h
  · exact absurd h (by simp)
  · split at h
    · rename_i p n heq
      exact ⟨p, n, (Option.some.inj h).symm⟩
    · exact absurd h (by simp)

/-- A cell scan hit is always a `PointAndNormal`. -/
theorem scanPairs_some (segments : List Segment) (ray : Vec3 × Vec3) :
    ∀ (ps : List (ℕ × ℕ)) (t : Intersection),
      scanPairs segments ray ps = some t →
      ∃ p n, t = Intersection.PointAndNormal p n := by
  intro ps
  induction ps with
  | nil => intro t h; exact absurd h (by simp [scanPairs])
  | cons pr rest ih =>
    intro t h
    rcases pr with ⟨sid, tid⟩
    unfold scanPairs at h
    split at h
    · rename_i t' heq
      obtain ⟨s, _, hm⟩ := Option.bind_eq_some.mp heq
      exact (Option.some.inj h) ▸ mesh_intersect_ray_some s.mesh ray tid t' hm
    · exact ih t h

/-- The cell iteration passes hits through unchanged. -/
theorem scanCells_some (tr : Tree) (segments : List Segment)
    (ray : Vec3 × Vec3) :
    ∀ (cells : List (ℤ × ℤ × ℤ)) (t : Intersection),
      scanCells tr segments ray cells = some t →
      ∃ p n, t = Intersection.PointAndNormal p n := by
  intro cells
  induction cells with
  | nil => intro t h; exact absurd h (by simp [scanCells])
  | cons c rest ih =>
    intro t h
    unfold scanCells at h
    split at h
    · rename_i t' heq
      exact (Option.some.inj h) ▸ scanPairs_some segments ray _ t' heq
    · exact ih t h

/-- C9: for any ray and any piece list whose grid entries are in bounds for
the referenced piece's current mesh, `Course::intersect_ray` returns only the
`None` or `PointAndNormal` variants — per-triangle `Degenerate` / `Parallel`
outcomes are filtered inside `Mesh::intersect_ray` and the scan continues. -/
theorem course_intersect_ray_variants (c : Course) (ray : Vec3 × Vec3)
    (hbound : ∀ cell sid tid, (sid, tid) ∈ c.tree.cells cell →
      ∀ s, c.segments.get? sid = some s → tid < s.mesh.triangles.length) :
    c.intersect_ray ray = Intersection.None ∨
      ∃ p n, c.intersect_ray ray = Intersection.PointAndNormal p n := by
  unfold Course.intersect_ray Tree.intersect_ray
  rcases hscan : scanCells c.tree c.segments ray
      (cellCube ⌊min ray.1.x ray.2.x / c.tree.size⌋
        ⌈max ray.1.x ray.2.x / c.tree.size⌉
        ⌊min ray.1.y ray.2.y / c.tree.size⌋
        ⌈max ray.1.y ray.2.y / c.tree.size⌉
        ⌊min ray.1.z ray.2.z / c.tree.size⌋
        ⌈max ray.1.z ray.2.z / c.tree.size⌉) with _ | t
  · left
    simp only [hscan]
  · right
    obtain ⟨p, n, ht⟩ := scanCells_some c.tree c.segments ray _ t hscan
    exact ⟨p, n, by simp only [hscan, ht]⟩

/-- Witness for C9 on an empty course and a concrete ray. -/
theorem course_intersect_ray_variants_witness :
    Course.intersect_ray ⟨[], 0, Tree.new 250⟩ (⟨0, 0, 0⟩, ⟨1, 2, 3⟩) =
        Intersection.None ∨
      ∃ p n, Course.intersect_ray ⟨[], 0, Tree.new 250⟩ (⟨0, 0, 0⟩, ⟨1, 2, 3⟩) =
        Intersection.PointAndNormal p n :=
  course_intersect_ray_variants ⟨[], 0, Tree.new 250⟩ (⟨0, 0, 0⟩, ⟨1, 2, 3⟩)
    (fun cell sid tid hmem => absurd hmem (by simp [Tree.new]))

/-- Witness for C10 on the empty row list with three columns. -/
theorem triangulate_short_rows_witness :
    (triangulate [] 3 0 0).1.length = ([] : List Row).length * (3 + 1) ∧
      (triangulate [] 3 0 0).2 = [] :=
  triangulate_short_rows [] 3 0 0 (by decide) (by decide)

/-! ### C2: stale grid entries after edits (`Course::edit` never re-indexes) -/


theorem Segment.generate_straight (s : Segment) (fuel : ℕ)
    (h : s.typ = SegmentType.Straight) :
    (s.generate fuel).rows =
      (Bezier.new s.from_ s.control_points.1 s.control_points.2.1
        s.to_).generate_segments 50 fuel ∧
    (s.generate fuel).mesh.triangles =
      triplesOf (triangulate ((Bezier.new s.from_ s.control_points.1
        s.control_points.2.1 s.to_).generate_segments 50 fuel) 3
        s.control_points.2.2.1 s.control_points.2.2.2).2 := by
  simp [Segment.generate, h, Mesh.from_raw, Mesh.set_color]

theorem straight_cp_eval (rows : List Row) (mesh : Mesh) :
    (Segment.mk ⟨⟨0, 0, 0.00001⟩, 200, 0⟩ ⟨⟨500, 0, 0.00001⟩, 200, 0⟩ 0 false
      SegmentType.Straight rows mesh).control_points =
    (⟨⟨332.5, 0, 0.00001⟩, 200, 0⟩, ⟨⟨167.5, 0, 0.00001⟩, 200, 0⟩, 0, 0) := by
  have h180 : Real.pi / 180 * ((0 : ℝ) + 180) = Real.pi := by
    rw [zero_add]
    rw [div_mul_cancel₀ _ (by norm_num : (180 : ℝ) ≠ 0)]
  simp only [Segment.control_points, Point.rotate_around, Point.new, h180,
    Real.cos_pi, Real.sin_pi]
  norm_num [Real.cos_zero, Real.sin_zero]

theorem seg0_eq :
    Segment.new 100 (Point.new 0 0 0 200 0) =
      (Segment.mk ⟨⟨0, 0, 0.00001⟩, 200, 0⟩ ⟨⟨500, 0, 0.00001⟩, 200, 0⟩ 0
        false SegmentType.Straight [] (Mesh.from_raw [] [])).generate 100 := by
  unfold Segment.new
  simp only [Segment.set_to_straight, Point.new]
  norm_num [Vec3.ext_iff]

theorem Segment.generate_from (s : Segment) (fuel : ℕ) :
    (s.generate fuel).from_ = s.from_ := rfl

theorem Segment.generate_to (s : Segment) (fuel : ℕ) :
    (s.generate fuel).to_ = s.to_ := rfl

theorem Segment.generate_angle (s : Segment) (fuel : ℕ) :
    (s.generate fuel).angle = s.angle := rfl

theorem Segment.generate_active (s : Segment) (fuel : ℕ) :
    (s.generate fuel).active_point = s.active_point := rfl

theorem Segment.generate_typ (s : Segment) (fuel : ℕ) :
    (s.generate fuel).typ = s.typ := rfl

theorem edit_kbI (s : Segment) (h : s.active_point = false) :
    s.edit kbI 100 =
      ({ s with
         from_ := { s.from_ with pos := s.from_.pos + (⟨100, 0, 0⟩ : Vec3) }
       }).generate 100 := by
  simp [Segment.edit, kbI, Segment.translate, h]

theorem course_edit_cons (s : Segment) (tree : Tree) :
    Course.edit ⟨[s], 0, tree⟩ kbI 100 = ⟨[s.edit kbI 100], 0, tree⟩ := by
  simp [Course.edit]

theorem bez_genLoop_len_pos (bz : Bezier) (step t : ℝ) (fuel : ℕ)
    (h : 0 < fuel) : 1 ≤ (bz.genLoop step fuel t).length := by
  rcases fuel with _ | fuel
  · omega
  · rw [bez_genLoop_succ]
    simp

theorem seg0_bez_rows_ge :
    3 ≤ ((Bezier.new ⟨⟨0, 0, 0.00001⟩, 200, 0⟩ ⟨⟨332.5, 0, 0.00001⟩, 200, 0⟩
      ⟨⟨167.5, 0, 0.00001⟩, 200, 0⟩
      ⟨⟨500, 0, 0.00001⟩, 200, 0⟩).generate_segments 50 100).length := by
  have hd0 : (Bezier.new ⟨⟨0, 0, 0.00001⟩, 200, 0⟩ ⟨⟨332.5, 0, 0.00001⟩, 200, 0⟩
      ⟨⟨167.5, 0, 0.00001⟩, 200, 0⟩
      ⟨⟨500, 0, 0.00001⟩, 200, 0⟩).derivative 0 = ⟨997.5, 0, 0⟩ := by
    simp only [Bezier.derivative, Bezier.new]
    ext <;> simp <;> norm_num
  have hm0 : ((Bezier.new ⟨⟨0, 0, 0.00001⟩, 200, 0⟩
      ⟨⟨332.5, 0, 0.00001⟩, 200, 0⟩ ⟨⟨167.5, 0, 0.00001⟩, 200, 0⟩
      ⟨⟨500, 0, 0.00001⟩, 200, 0⟩).derivative 0).magnitude = 997.5 := by
    rw [hd0]
    simp only [Vec3.magnitude, Vec3.dot_mk]
    rw [show (997.5 * 997.5 + 0 * 0 + 0 * 0 : ℝ) = 997.5 ^ 2 by norm_num]
    exact Real.sqrt_sq (by norm_num)
  have hs0 : (Bezier.new ⟨⟨0, 0, 0.00001⟩, 200, 0⟩
      ⟨⟨332.5, 0, 0.00001⟩, 200, 0⟩ ⟨⟨167.5, 0, 0.00001⟩, 200, 0⟩
      ⟨⟨500, 0, 0.00001⟩, 200, 0⟩).stepAt 50 0 = 50 / 997.5 := by
    simp only [Bezier.stepAt]
    rw [hm0, if_neg (by norm_num)]
    norm_num
  unfold Bezier.generate_segments
  rw [show (100 : ℕ) = (98 + 1) + 1 from rfl]
  rw [bez_genLoop_succ, if_neg (by norm_num : ¬ (1 : ℝ) ≤ 0), hs0]
  rw [bez_genLoop_succ, if_neg (by norm_num : ¬ (1 : ℝ) ≤ 50 / 997.5)]
  simp only [List.length_cons]
  have hpos := bez_genLoop_len_pos (Bezier.new ⟨⟨0, 0, 0.00001⟩, 200, 0⟩
    ⟨⟨332.5, 0, 0.00001⟩, 200, 0⟩ ⟨⟨167.5, 0, 0.00001⟩, 200, 0⟩
    ⟨⟨500, 0, 0.00001⟩, 200, 0⟩) 50
    ((Bezier.new ⟨⟨0, 0, 0.00001⟩, 200, 0⟩ ⟨⟨332.5, 0, 0.00001⟩, 200, 0⟩
      ⟨⟨167.5, 0, 0.00001⟩, 200, 0⟩
      ⟨⟨500, 0, 0.00001⟩, 200, 0⟩).stepAt 50 (50 / 997.5)) 98 (by norm_num)
  omega

theorem trackLoop_two_bands (cols len l : ℕ) (h : cols + 1 < l) :
    12 * cols ≤ (trackLoop cols len l 0).length := by
  rw [trackLoop_pos _ _ _ _ (by omega)]
  rw [List.length_append, band_length]
  rw [show 0 + cols + 1 = cols + 1 from by omega]
  rw [trackLoop_pos _ _ _ _ h]
  rw [List.length_append, band_length]
  omega

theorem seg0_rows_ge :
    3 ≤ (Segment.new 100 (Point.new 0 0 0 200 0)).rows.length := by
  rw [seg0_eq]
  rw [(Segment.generate_straight _ 100 rfl).1, straight_cp_eval]
  dsimp only
  exact seg0_bez_rows_ge

theorem seg0_count_ge :
    12 ≤ (Segment.new 100 (Point.new 0 0 0 200 0)).mesh.triangles.length := by
  have hrows := seg0_rows_ge
  rw [seg0_eq] at hrows ⊢
  rw [(Segment.generate_straight _ 100 rfl).1, straight_cp_eval] at hrows
  rw [(Segment.generate_straight _ 100 rfl).2, straight_cp_eval]
  dsimp only at hrows ⊢
  rw [triplesOf_length, triangulate_snd]
  have h2 := trackLoop_two_bands 3
    (((Bezier.new ⟨⟨0, 0, 0.00001⟩, 200, 0⟩ ⟨⟨332.5, 0, 0.00001⟩, 200, 0⟩
      ⟨⟨167.5, 0, 0.00001⟩, 200, 0⟩
      ⟨⟨500, 0, 0.00001⟩, 200, 0⟩).generate_segments 50 100).length * (3 + 1))
    (((Bezier.new ⟨⟨0, 0, 0.00001⟩, 200, 0⟩ ⟨⟨332.5, 0, 0.00001⟩, 200, 0⟩
      ⟨⟨167.5, 0, 0.00001⟩, 200, 0⟩
      ⟨⟨500, 0, 0.00001⟩, 200, 0⟩).generate_segments 50 100).length * (3 + 1)
      - (3 + 1)) (by omega)
  omega

theorem straight_cp_degenerate (s : Segment)
    (hf : s.from_ = ⟨⟨500, 0, 0.00001⟩, 200, 0⟩)
    (ht : s.to_ = ⟨⟨500, 0, 0.00001⟩, 200, 0⟩)
    (ha : s.angle = 0) (hty : s.typ = SegmentType.Straight) :
    s.control_points =
      (⟨⟨500, 0, 0.00001⟩, 200, 0⟩, ⟨⟨500, 0, 0.00001⟩, 200, 0⟩,
        (0 : ℝ), (0 : ℝ)) := by
  have h180 : Real.pi / 180 * ((0 : ℝ) + 180) = Real.pi := by
    rw [zero_add]
    rw [div_mul_cancel₀ _ (by norm_num : (180 : ℝ) ≠ 0)]
  simp only [Segment.control_points, hty, hf, ht, ha, Point.rotate_around,
    Point.new, h180, Real.cos_pi, Real.sin_pi]
  norm_num [Real.cos_zero, Real.sin_zero]

theorem degenerate_bez_rows :
    ((Bezier.new ⟨⟨500, 0, 0.00001⟩, 200, 0⟩ ⟨⟨500, 0, 0.00001⟩, 200, 0⟩
      ⟨⟨500, 0, 0.00001⟩, 200, 0⟩
      ⟨⟨500, 0, 0.00001⟩, 200, 0⟩).generate_segments 50 100).length = 2 := by
  have hd0 : (Bezier.new ⟨⟨500, 0, 0.00001⟩, 200, 0⟩
      ⟨⟨500, 0, 0.00001⟩, 200, 0⟩ ⟨⟨500, 0, 0.00001⟩, 200, 0⟩
      ⟨⟨500, 0, 0.00001⟩, 200, 0⟩).derivative 0 = ⟨0, 0, 0⟩ := by
    simp only [Bezier.derivative, Bezier.new]
    ext <;> simp
  have hs0 : (Bezier.new ⟨⟨500, 0, 0.00001⟩, 200, 0⟩
      ⟨⟨500, 0, 0.00001⟩, 200, 0⟩ ⟨⟨500, 0, 0.00001⟩, 200, 0⟩
      ⟨⟨500, 0, 0.00001⟩, 200, 0⟩).stepAt 50 0 = 2 := by
    simp only [Bezier.stepAt]
    rw [hd0]
    rw [if_pos]
    · norm_num
    · simp only [Vec3.magnitude, Vec3.dot_mk]
      norm_num
  unfold Bezier.generate_segments
  rw [show (100 : ℕ) = (98 + 1) + 1 from rfl]
  rw [bez_genLoop_succ, if_neg (by norm_num : ¬ (1 : ℝ) ≤ 0), hs0]
  rw [bez_genLoop_succ, if_pos (by norm_num : (1 : ℝ) ≤ 2)]
  rfl

theorem generate_count_degenerate (s : Segment)
    (hf : s.from_ = ⟨⟨500, 0, 0.00001⟩, 200, 0⟩)
    (ht : s.to_ = ⟨⟨500, 0, 0.00001⟩, 200, 0⟩)
    (ha : s.angle = 0) (hty : s.typ = SegmentType.Straight) :
    (s.generate 100).mesh.triangles.length = 6 := by
  rw [(Segment.generate_straight s 100 hty).2,
    straight_cp_degenerate s hf ht ha hty, hf, ht]
  dsimp only
  rw [triplesOf_length, triangulate_snd, degenerate_bez_rows]
  rw [show 2 * (3 + 1) - (3 + 1) = 4 from rfl]
  rw [trackLoop_pos _ _ _ _ (by omega)]
  rw [show 0 + 3 + 1 = 4 from rfl]
  rw [trackLoop_neg _ _ _ _ (by omega)]
  rw [List.length_append, band_length]
  rfl

theorem Mesh.trianglePoints_length (m : Mesh) :
    m.trianglePoints.length = m.triangles.length := List.length_map _ _

theorem edit_kbI_fields (s : Segment) (h4 : s.active_point = false) :
    (s.edit kbI 100).from_ =
      { s.from_ with pos := s.from_.pos + (⟨100, 0, 0⟩ : Vec3) } ∧
    (s.edit kbI 100).to_ = s.to_ ∧
    (s.edit kbI 100).angle = s.angle ∧
    (s.edit kbI 100).active_point = false ∧
    (s.edit kbI 100).typ = s.typ := by
  rw [edit_kbI s h4]
  exact ⟨Segment.generate_from _ _, Segment.generate_to _ _,
    Segment.generate_angle _ _, by rw [Segment.generate_active]; exact h4,
    Segment.generate_typ _ _⟩

theorem edit_kbI_count (s : Segment)
    (h1 : s.from_ = ⟨⟨400, 0, 0.00001⟩, 200, 0⟩)
    (h2 : s.to_ = ⟨⟨500, 0, 0.00001⟩, 200, 0⟩)
    (h3 : s.angle = 0) (h4 : s.active_point = false)
    (h5 : s.typ = SegmentType.Straight) :
    (s.edit kbI 100).mesh.triangles.length = 6 := by
  rw [edit_kbI s h4]
  refine generate_count_degenerate _ ?_ (by exact h2) (by exact h3)
    (by exact h5)
  show { s.from_ with pos := s.from_.pos + (⟨100, 0, 0⟩ : Vec3) } =
    (⟨⟨500, 0, 0.00001⟩, 200, 0⟩ : Point)
  rw [h1]
  simp only [Vec3.mk_add_mk, Point.mk.injEq, Vec3.mk.injEq]
  norm_num

theorem edit_kbI_step (s : Segment) (x : ℝ)
    (h1 : s.from_ = ⟨⟨x, 0, 0.00001⟩, 200, 0⟩)
    (h2 : s.to_ = ⟨⟨500, 0, 0.00001⟩, 200, 0⟩)
    (h3 : s.angle = 0) (h4 : s.active_point = false)
    (h5 : s.typ = SegmentType.Straight) :
    (s.edit kbI 100).from_ = ⟨⟨x + 100, 0, 0.00001⟩, 200, 0⟩ ∧
    (s.edit kbI 100).to_ = ⟨⟨500, 0, 0.00001⟩, 200, 0⟩ ∧
    (s.edit kbI 100).angle = 0 ∧
    (s.edit kbI 100).active_point = false ∧
    (s.edit kbI 100).typ = SegmentType.Straight := by
  obtain ⟨e1, e2, e3, e4, e5⟩ := edit_kbI_fields s h4
  refine ⟨?_, by rw [e2, h2], by rw [e3, h3], e4, by rw [e5, h5]⟩
  rw [e1, h1]
  norm_num

/-- C2 is violated by the code: `Course::edit` never touches the `Tree`
(`Tree::insert` is only called from `Course::new`, `Tree::remove` is an empty
TODO stub).  Failing run: from the initial course, apply five edits that each
press only `I` (translate the inactive `from` endpoint by `+100` on x).  The
initial Straight piece (from `(0,0,ε)` to `(500,0,ε)`) has at least three rows
and hence at least `12` triangles, all indexed into the grid; after the five
edits both endpoints coincide, the regenerated mesh has exactly `2` rows and
`6` triangles, yet the grid still holds the pair `(0, 11)` — a triangle index
out of bounds for the current mesh, which a later `intersect_ray` dereferences
(`self.triangles[tid]`, a panic in the Rust source). -/
theorem course_grid_stale_entry :
    ∃ cell : ℤ × ℤ × ℤ,
      (0, 11) ∈ ((((((Course.new 100).edit kbI 100).edit kbI 100).edit kbI
          100).edit kbI 100).edit kbI 100).tree.cells cell ∧
      ((((((Course.new 100).edit kbI 100).edit kbI 100).edit kbI 100).edit
          kbI 100).edit kbI 100).segments.map
        (fun s => s.mesh.triangles.length) = [6] := by
  have hc0 : Course.new 100 =
      ⟨[Segment.new 100 (Point.new 0 0 0 200 0)], 0,
        (Tree.new 250).insert (Segment.new 100 (Point.new 0 0 0 200 0)) 0⟩ :=
    rfl
  have hc5 : (((((Course.new 100).edit kbI 100).edit kbI 100).edit kbI
      100).edit kbI 100).edit kbI 100 =
      ⟨[(((((Segment.new 100 (Point.new 0 0 0 200 0)).edit kbI 100).edit kbI
          100).edit kbI 100).edit kbI 100).edit kbI 100], 0,
        (Tree.new 250).insert (Segment.new 100 (Point.new 0 0 0 200 0)) 0⟩ := by
    rw [hc0, course_edit_cons, course_edit_cons, course_edit_cons,
      course_edit_cons, course_edit_cons]
  have hF0 : (Segment.new 100 (Point.new 0 0 0 200 0)).from_ =
        ⟨⟨0, 0, 0.00001⟩, 200, 0⟩ ∧
      (Segment.new 100 (Point.new 0 0 0 200 0)).to_ =
        ⟨⟨500, 0, 0.00001⟩, 200, 0⟩ ∧
      (Segment.new 100 (Point.new 0 0 0 200 0)).angle = 0 ∧
      (Segment.new 100 (Point.new 0 0 0 200 0)).active_point = false ∧
      (Segment.new 100 (Point.new 0 0 0 200 0)).typ =
        SegmentType.Straight := by
    rw [seg0_eq]
    exact ⟨Segment.generate_from _ _, Segment.generate_to _ _,
      Segment.generate_angle _ _, Segment.generate_active _ _,
      Segment.generate_typ _ _⟩
  obtain ⟨f0, t0, a0, p0, y0⟩ := hF0
  obtain ⟨f1, t1, a1, p1, y1⟩ :=
    edit_kbI_step _ 0 f0 t0 a0 p0 y0
  rw [show (0 : ℝ) + 100 = 100 by norm_num] at f1
  obtain ⟨f2, t2, a2, p2, y2⟩ := edit_kbI_step _ 100 f1 t1 a1 p1 y1
  rw [show (100 : ℝ) + 100 = 200 by norm_num] at f2
  obtain ⟨f3, t3, a3, p3, y3⟩ := edit_kbI_step _ 200 f2 t2 a2 p2 y2
  rw [show (200 : ℝ) + 100 = 300 by norm_num] at f3
  obtain ⟨f4, t4, a4, p4, y4⟩ := edit_kbI_step _ 300 f3 t3 a3 p3 y3
  rw [show (300 : ℝ) + 100 = 400 by norm_num] at f4
  have hcount : ((((((Segment.new 100 (Point.new 0 0 0 200 0)).edit kbI
      100).edit kbI 100).edit kbI 100).edit kbI 100).edit kbI
      100).mesh.triangles.length = 6 :=
    edit_kbI_count _ f4 t4 a4 p4 y4
  have hmem : ∃ cell, (0, 11) ∈ ((Tree.new 250).insert
      (Segment.new 100 (Point.new 0 0 0 200 0)) 0).cells cell := by
    apply tree_insert_mem
    · norm_num [Tree.new]
    · rw [Mesh.trianglePoints_length]
      have := seg0_count_ge
      omega
  obtain ⟨cell, hcell⟩ := hmem
  refine ⟨cell, ?_, ?_⟩
  · rw [hc5]
    exact hcell
  · rw [hc5]
    simp only [List.map_cons, List.map_nil, hcount]

end Glider